import Mathlib

/-!
# Verification of the WireViz connection-resolution engine and BOM aggregator

Shallow embedding of `src/wireviz/wireviz.py` (the `parse` function: connection-set
count determination, normalization, designator resolution, pin expansion, entity
materialization, transposition and chain linking) and `src/wireviz/Harness.py`
(the `Harness` aggregate: `connect` with its pin-label validation, and `bom` /
`get_bom_index` with grouping, deduplication, sorting and id assignment).

Python dictionaries are modelled as insertion-ordered association lists, Python
exceptions as explicit error values, and the mutation of the harness object as
explicit state passing.  Functions raising mid-method return the state as it was
at the moment of the raise, so theorems about "no partial mutation" are about the
real statement order of the source.

A few helpers (`wv_helper.expand`, `wv_helper.clean_whitespace`, and the
`DataClasses` constructors) are not part of the two source files; where they are
needed they are modelled from the spec and marked as such in their doc comments.
-/

/-- A scalar value as it appears in the parsed YAML document: Python `int` or
`str`.  Equality between an `int` and a `str` is `False` in Python, which the
inductive separation gives for free. -/
inductive PVal where
  | int (n : Int)
  | str (s : String)
deriving DecidableEq, Repr

/-- The fatal errors of the engine (Python raises `Exception` with a message;
the spec names them, and the constructors carry the data of the message). -/
inductive WvError where
  | formatError (s : String)
  | ambiguousConnectionCount
  | inconsistentConnectionCount
  | designatorConflict (designator old new : String)
  | ambiguousPinReference (name : String) (pin : PVal)
  | duplicatePinLabel (name : String) (pin : PVal)
  | unknownPin (name : String) (pin : Option PVal)
  | unknownCable (name : String)
deriving DecidableEq, Repr

/-- Lookup in an insertion-ordered association list (model of a Python `dict`). -/
def lookupA (l : List (String × α)) (k : String) : Option α :=
  (l.find? (fun p => p.1 = k)).map (fun p => p.2)

@[simp] theorem lookupA_nil (k : String) : lookupA ([] : List (String × α)) k = none := rfl

@[simp] theorem lookupA_cons (a : String) (b : α) (l : List (String × α)) (k : String) :
    lookupA ((a, b) :: l) k = if a = k then some b else lookupA l k := by
  simp only [lookupA, List.find?_cons]
  by_cases h : a = k <;> simp [h]

/-- `d[k] = v` on a Python `dict`: replaces the value in place if the key exists
(keeping its position), otherwise appends (dicts preserve insertion order). -/
def setA : List (String × α) → String → α → List (String × α)
  | [], k, v => [(k, v)]
  | (a, b) :: rest, k, v => if a = k then (k, v) :: rest else (a, b) :: setA rest k v

theorem lookupA_setA_self (l : List (String × α)) (k : String) (v : α) :
    lookupA (setA l k v) k = some v := by
  induction l with
  | nil => simp [setA]
  | cons p rest ih =>
    obtain ⟨a, b⟩ := p
    by_cases h : a = k <;> simp [setA, h, ih]

theorem lookupA_setA_ne (l : List (String × α)) (k k' : String) (v : α) (h : k' ≠ k) :
    lookupA (setA l k v) k' = lookupA l k' := by
  induction l with
  | nil => simp [setA, Ne.symm h]
  | cons p rest ih =>
    obtain ⟨a, b⟩ := p
    by_cases ha : a = k
    · subst ha
      simp [setA, Ne.symm h]
    · simp [setA, ha, ih]

/-- Splitting a character list at every occurrence of `c`
(the logical model of Python `str.split(sep)`). -/
def splitChars (c : Char) : List Char → List (List Char)
  | [] => [[]]
  | x :: xs =>
    let r := splitChars c xs
    if x = c then [] :: r
    else
      match r with
      | [] => [[x]]
      | y :: ys => (x :: y) :: ys

/-- Python `s.split(sep)` for a one-character separator. -/
def splitStr (c : Char) (s : String) : List String :=
  (splitChars c s.data).map String.mk

/-- Python `sep in s` for a one-character needle. -/
def containsChar (c : Char) (s : String) : Bool :=
  s.data.contains c

example : splitStr (Char.ofNat 46) "X1.X2" = ["X1", "X2"] := by decide
example : splitStr (Char.ofNat 46) "X1." = ["X1", ""] := by decide
example : splitStr (Char.ofNat 45) "1-2" = ["1", "2"] := by decide
example : containsChar (Char.ofNat 46) "X1" = false := by decide

instance instDecEqExcept [DecidableEq ε] [DecidableEq α] : DecidableEq (Except ε α) :=
  fun x y =>
    match x, y with
    | .ok a, .ok b =>
      match decEq a b with
      | isTrue h => isTrue (by rw [h])
      | isFalse h => isFalse (fun hh => h (Except.ok.inj hh))
    | .error a, .error b =>
      match decEq a b with
      | isTrue h => isTrue (by rw [h])
      | isFalse h => isFalse (fun hh => h (Except.error.inj hh))
    | .ok _, .error _ => isFalse (fun hh => Except.noConfusion hh)
    | .error _, .ok _ => isFalse (fun hh => Except.noConfusion hh)

/-! ## Designator resolution (`wireviz.py`, `resolve_designator`, lines 79-98) -/

/-- The resolution context of one pass: `designators_and_templates` (designator to
template registry) and `autogenerated_designators` (per-template counters). -/
structure ResCtx where
  desigs : List (String × String)
  autogen : List (String × Nat)
deriving DecidableEq, Repr

/-- `resolve_designator` from `wireviz.py`.  Returns the `(template, designator)`
pair together with the updated context; an error carries the context as it was at
the moment of the raise (the autogen counter increment precedes the conflict
check in the source, so it survives into the error state).  A token with more
than one dot makes the Python `split` unpacking raise `ValueError`; that is
modelled as a `formatError`. -/
def resolve_designator (ctx : ResCtx) (inp : String) : ResCtx × Except WvError (String × String) :=
  if containsChar '.' inp then
    match splitStr '.' inp with
    | [template, d0] =>
      let st :=
        if d0 = "" then
          let n := (lookupA ctx.autogen template).getD 0 + 1
          ({ ctx with autogen := setA ctx.autogen template n },
           "_" ++ template ++ "_" ++ toString n)
        else (ctx, d0)
      match lookupA st.1.desigs st.2 with
      | some t =>
        if t ≠ template then (st.1, .error (.designatorConflict st.2 t template))
        else (st.1, .ok (template, st.2))
      | none =>
        ({ st.1 with desigs := st.1.desigs ++ [(st.2, template)] }, .ok (template, st.2))
    | _ => (ctx, .error (.formatError inp))
  else
    match lookupA ctx.desigs inp with
    | some _ => (ctx, .ok (inp, inp))
    | none => ({ ctx with desigs := ctx.desigs ++ [(inp, inp)] }, .ok (inp, inp))

example :
    resolve_designator ⟨[], []⟩ "X." =
      (⟨[("_X_1", "X")], [("X", 1)]⟩, .ok ("X", "_X_1")) := by decide
example :
    resolve_designator ⟨[("_X_1", "X")], [("X", 1)]⟩ "X." =
      (⟨[("_X_1", "X"), ("_X_2", "X")], [("X", 2)]⟩, .ok ("X", "_X_2")) := by decide
example :
    resolve_designator ⟨[("D", "T")], []⟩ "D" = (⟨[("D", "T")], []⟩, .ok ("D", "D")) := by
  decide

/-! ## Range expansion

`wv_helper.expand` is not among the source files (only its callers are), so it is
modelled from the spec. -/

/-- A scalar inside a pin-range shorthand value. -/
inductive SVal where
  | i (n : Int)
  | s (st : String)
deriving DecidableEq, Repr

/-- The value of a connection-set mapping entry: a single scalar or a list of
scalars. -/
inductive RangeVal where
  | scalar (v : SVal)
  | listOf (vs : List SVal)
deriving DecidableEq, Repr

/-- Decimal digit accumulation over a character list (the logical model of
Python `int(s)` for nonnegative decimals). -/
def natOfCharsAux : Nat → List Char → Option Nat
  | acc, [] => some acc
  | acc, c :: cs =>
    if c.isDigit then natOfCharsAux (acc * 10 + (c.toNat - 48)) cs else none

/-- `int(s)` for a nonnegative decimal string; `none` when malformed or empty. -/
def natOfString (s : String) : Option Nat :=
  match s.data with
  | [] => none
  | l => natOfCharsAux 0 l

/-- Modelled from the spec: parse one integer token of a range shorthand;
a non-numeric token is a `FormatError` (`wv_helper.expand` is not under `src/`).
Tokens reaching this point have already been split at every `-`, so only
nonnegative decimals occur. -/
def parseIntTok (s : String) : Except WvError Int :=
  match natOfString s with
  | some n => .ok (n : Int)
  | none => .error (.formatError s)

/-- The inclusive integer range from `x` to `y`, ascending or descending. -/
def intRange (x y : Int) : List Int :=
  if x ≤ y then (List.range (y - x + 1).toNat).map (fun i => x + (i : Int))
  else (List.range (x - y + 1).toNat).map (fun i => x - (i : Int))

/-- Modelled from the spec: expand one comma-separated token, either a single
integer or an inclusive `start-end` range (ranges may descend); malformed tokens
are a `FormatError` (`wv_helper.expand` is not under `src/`). -/
def expandTok (s : String) : Except WvError (List Int) :=
  match splitStr '-' s with
  | [a] => (parseIntTok a).map (fun n => [n])
  | [a, b] =>
    match parseIntTok a, parseIntTok b with
    | .ok x, .ok y => .ok (intRange x y)
    | .error e, _ => .error e
    | _, .error e => .error e
  | _ => .error (.formatError s)

/-- Modelled from the spec: expand one scalar (an integer stands for itself, a
string is a comma-separated list of tokens) (`wv_helper.expand` is not under
`src/`). -/
def expandScalar : SVal → Except WvError (List Int)
  | .i n => .ok [n]
  | .s st =>
    match (splitStr ',' st).mapM expandTok with
    | .ok ls => .ok ls.flatten
    | .error e => .error e

/-- Modelled from the spec: the Range Expander of spec section 4.1 — a scalar, or
a list of scalars each expanded in order (`wv_helper.expand` is not under
`src/`). -/
def expand : RangeVal → Except WvError (List Int)
  | .scalar v => expandScalar v
  | .listOf vs =>
    match vs.mapM expandScalar with
    | .ok ls => .ok ls.flatten
    | .error e => .error e

example : expand (.scalar (.s "1-2")) = .ok [1, 2] := by decide
example : expand (.scalar (.s "1-3,5")) = .ok [1, 2, 3, 5] := by decide
example : expand (.scalar (.s "4-1")) = .ok [4, 3, 2, 1] := by decide
example : expand (.listOf [.i 1, .i 4]) = .ok [1, 4] := by decide

/-! ## Entity model (`Harness.py` and, for the dataclass shapes, spec section 3;
`DataClasses.py` is not under `src/`, so field shapes are modelled from the
spec) -/

/-- Modelled from the spec: an additional component attached to a connector or
cable (spec section 3, `AdditionalComponent`); `qty_multiplier` resolution
happens in the missing `DataClasses.py`, so the already-resolved multiplier is
carried as a plain number. -/
structure AdditionalComponent where
  description : String
  qty : ℚ
  multiplier : ℚ
  unit : Option String
  manufacturer : Option String
  mpn : Option String
  pn : Option String
deriving DecidableEq, Repr

/-- A connector instance (fields used by `Harness.connect` and `Harness.bom`;
shapes modelled from spec section 3 where `DataClasses.py` is missing). -/
structure Connector where
  pins : List PVal := []
  pinlabels : List PVal := []
  ctype : Option String := none
  subtype : Option String := none
  pincount : Nat := 0
  show_name : Bool := true
  show_pincount : Bool := true
  color : Option String := none
  manufacturer : Option String := none
  mpn : Option String := none
  pn : Option String := none
  ignore_in_bom : Bool := false
  additional_components : List AdditionalComponent := []
deriving DecidableEq, Repr

/-- A cable field that is either one scalar or one value per wire
(`index_if_list` in `wv_helper` picks per wire). -/
inductive PNField where
  | scalar (v : Option String)
  | perwire (vs : List (Option String))
deriving DecidableEq, Repr

/-- `wv_helper.index_if_list` (not under `src/`, modelled from its use in
`Harness.bom`): `x[index] if isinstance(x, list) else x`. -/
def index_if_list : PNField → Nat → Option String
  | .scalar v, _ => v
  | .perwire vs, i => vs.getD i none

/-- The scalar reading of a `PNField` as it enters a non-bundle BOM entry.
(The source would put the raw list into the grouping key there, which Python
cannot hash — unreachable for well-formed documents.) -/
def pnScalar : PNField → Option String
  | .scalar v => v
  | .perwire _ => none

/-- One record of `Cable.connections`: `(from_name, from_pin, via_port, to_name,
to_pin)` (spec section 3; appended by `Cable.connect`, which lives in the
missing `DataClasses.py` and is modelled from the spec as a plain append). -/
structure WireConnection where
  from_name : Option String
  from_pin : Option PVal
  via_port : PVal
  to_name : Option String
  to_pin : Option PVal
deriving DecidableEq, Repr

/-- A cable instance (fields used by `Harness.connect` and `Harness.bom`). -/
structure Cable where
  wirecount : Nat := 0
  ctype : Option String := none
  gauge : Option String := none
  gauge_unit : String := ""
  length : ℚ := 0
  shield : Bool := false
  category_bundle : Bool := false
  colors : List String := []
  show_name : Bool := true
  manufacturer : PNField := .scalar none
  mpn : PNField := .scalar none
  pn : PNField := .scalar none
  ignore_in_bom : Bool := false
  additional_components : List AdditionalComponent := []
  connections : List WireConnection := []
deriving DecidableEq, Repr

/-- One BOM entry dictionary as built inside `Harness.bom` (also the shape of a
freestanding `additional_bom_items` line, already carrying the
`.get(..., default)` defaults applied at `Harness.bom` lines 452-456).
`designators` models the Python `str | list | None` field: `None` and the empty
string contribute nothing to a group, exactly like the empty list. -/
structure BomEntry where
  item : String
  qty : ℚ
  unit : Option String
  designators : List String
  manufacturer : Option String
  mpn : Option String
  pn : Option String
deriving DecidableEq, Repr

/-- The harness aggregate (`Harness.__init__`): connectors and cables as
insertion-ordered dictionaries, the additional BOM lines, and the internal BOM
cache `_bom`. -/
structure Harness where
  connectors : List (String × Connector) := []
  cables : List (String × Cable) := []
  additional_bom_items : List BomEntry := []
  bomCache : List (Nat × BomEntry) := []
deriving DecidableEq, Repr

/-! ## `Harness.connect` (`Harness.py` lines 43-66) -/

/-- The per-side validation of `Harness.connect` for one `(name, pin)` pair once
the connector is found: the ambiguity check between `pins` and `pinlabels`, the
duplicate-label check, the label-to-pin substitution, and the final membership
check.  The payload `some p` means the source executed `pin = connector.pins[index]`
(a label substitution to `p`); `none` means the pin passed through unchanged.
`connector.pins[index]` is modelled with `getD`, whose default is unreachable
while `len(pins) == len(pinlabels)` (the connector invariant of spec section 3;
with the invariant broken the source would raise `IndexError` instead). -/
def checkSideCore (c : Connector) (nm : String) (pin : Option PVal) :
    Except WvError (Option PVal) :=
  match pin with
  | none => .error (.unknownPin nm none)
  | some p =>
    if p ∈ c.pins ∧ p ∈ c.pinlabels ∧ c.pins.indexOf p ≠ c.pinlabels.indexOf p then
      .error (.ambiguousPinReference nm p)
    else if p ∈ c.pinlabels then
      if 1 < c.pinlabels.count p then .error (.duplicatePinLabel nm p)
      else
        if c.pins.getD (c.pinlabels.indexOf p) p ∈ c.pins then
          .ok (some (c.pins.getD (c.pinlabels.indexOf p) p))
        else .error (.unknownPin nm (some (c.pins.getD (c.pinlabels.indexOf p) p)))
    else if p ∈ c.pins then .ok none
    else .error (.unknownPin nm (some p))

/-- One iteration of the `for (name, pin) in zip(...)` loop of `Harness.connect`:
a `None` name or a name that is not a known connector skips every check. -/
def runSide (connectors : List (String × Connector)) (name : Option String)
    (pin : Option PVal) : Except WvError (Option PVal) :=
  match name with
  | none => .ok none
  | some nm =>
    match lookupA connectors nm with
    | none => .ok none
    | some c => checkSideCore c nm pin

/-- Apply an optional label substitution to a pin value. -/
def applySub (orig : Option PVal) (s : Option PVal) : Option PVal :=
  match s with
  | some v => some v
  | none => orig

/-- `Harness.connect`.  The two sides are validated in order; the source then
reassigns `from_pin`/`to_pin` under `if name == from_name` / `if name == to_name`,
so when both sides name the same connector a substitution on either side
overwrites both (faithfully modelled below); finally the single mutating call
`self.cables[via_name].connect(...)` appends one record (`Cable.connect` is in
the missing `DataClasses.py`, modelled from spec section 3 as an append; a
missing cable key is Python's `KeyError`).  On error the harness is returned as
it was at the moment of the raise. -/
def connectH (h : Harness) (from_name : Option String) (from_pin : Option PVal)
    (via_name : String) (via_pin : PVal) (to_name : Option String)
    (to_pin : Option PVal) : Harness × Option WvError :=
  match runSide h.connectors from_name from_pin with
  | .error e => (h, some e)
  | .ok s1 =>
    let fp1 := applySub from_pin s1
    let tp1 :=
      match s1 with
      | some v => if from_name = to_name then some v else to_pin
      | none => to_pin
    match runSide h.connectors to_name to_pin with
    | .error e => (h, some e)
    | .ok s2 =>
      let fp2 :=
        match s2 with
        | some v => if to_name = from_name then some v else fp1
        | none => fp1
      let tp2 := applySub tp1 s2
      match lookupA h.cables via_name with
      | none => (h, some (.unknownCable via_name))
      | some cab =>
        ({ h with
            cables := setA h.cables via_name
              { cab with
                  connections :=
                    cab.connections ++ [⟨from_name, fp2, via_pin, to_name, tp2⟩] } },
         none)

/-! ## The connection-set pipeline (`wireviz.py`, `parse`, lines 100-216) -/

/-- One entry of a connection set: a bare designator string, a list of
designator strings, or a single-key mapping of designator to pin-range
shorthand. -/
inductive SetEntry where
  | str (s : String)
  | list (l : List String)
  | dict (key : String) (val : RangeVal)
deriving DecidableEq, Repr

/-- The count contribution of one entry (`wireviz.py` lines 108-114): a list its
length, a mapping the expanded length of its range (an expansion failure
propagates, as `len(expand(...))` would raise), a bare string `None`. -/
def contribution : SetEntry → Except WvError (Option Nat)
  | .str _ => .ok none
  | .list l => .ok (some l.length)
  | .dict _ v =>
    match expand v with
    | .ok xs => .ok (some xs.length)
    | .error e => .error e

/-- The `connectioncount` list of one connection set, left to right, first
failure wins. -/
def contributionsOf : List SetEntry → Except WvError (List (Option Nat))
  | [] => .ok []
  | e :: rest =>
    match contribution e with
    | .error er => .error er
    | .ok c =>
      match contributionsOf rest with
      | .error er => .error er
      | .ok cs => .ok (c :: cs)

/-- Parallel-count determination (`wireviz.py` lines 107-124).  Mirrors the
Python truthiness of `any(connectioncount)` and `filter(None, connectioncount)`:
both treat a contribution of `0` exactly like `None`. -/
def determineCount (cs : List SetEntry) : Except WvError Nat :=
  match contributionsOf cs with
  | .error e => .error e
  | .ok counts =>
    if ¬ counts.any (fun c => c.getD 0 ≠ 0) then
      .error .ambiguousConnectionCount
    else
      let filtered := (counts.filterMap id).filter (fun n => n ≠ 0)
      if 1 < filtered.dedup.length then
        .error .inconsistentConnectionCount
      else
        .ok (filtered.headD 0)

/-- Width normalization (`wireviz.py` lines 127-130): every bare string entry
becomes a list of that string repeated `count` times. -/
def normalizeSet (n : Nat) (cs : List SetEntry) : List SetEntry :=
  cs.map fun e =>
    match e with
    | .str s => .list (List.replicate n s)
    | e => e

/-- Designator resolution over one list entry (`wireviz.py` lines 138-142),
left to right, threading the context; the error state keeps the partially
updated context, as the Python registry mutation would. -/
def resolveList (ctx : ResCtx) : List String → ResCtx × Except WvError (List String)
  | [] => (ctx, .ok [])
  | s :: rest =>
    match resolve_designator ctx s with
    | (ctx', .error e) => (ctx', .error e)
    | (ctx', .ok (_, designator)) =>
      match resolveList ctx' rest with
      | (ctx'', .error e) => (ctx'', .error e)
      | (ctx'', .ok rest') => (ctx'', .ok (designator :: rest'))

/-- Designator resolution over one entry (`wireviz.py` lines 136-150): list
elements are replaced by their designators, a mapping key is resolved and the
mapping rebuilt as `{designator: value}`, strings pass through. -/
def resolveEntry (ctx : ResCtx) : SetEntry → ResCtx × Except WvError SetEntry
  | .list l =>
    match resolveList ctx l with
    | (ctx', .error e) => (ctx', .error e)
    | (ctx', .ok l') => (ctx', .ok (.list l'))
  | .dict k v =>
    match resolve_designator ctx k with
    | (ctx', .error e) => (ctx', .error e)
    | (ctx', .ok (_, designator)) => (ctx', .ok (.dict designator v))
  | .str s => (ctx, .ok (.str s))

/-- Designator resolution over the whole set, in order. -/
def resolveEntries (ctx : ResCtx) : List SetEntry → ResCtx × Except WvError (List SetEntry)
  | [] => (ctx, .ok [])
  | e :: rest =>
    match resolveEntry ctx e with
    | (ctx', .error er) => (ctx', .error er)
    | (ctx', .ok e') =>
      match resolveEntries ctx' rest with
      | (ctx'', .error er) => (ctx'', .error er)
      | (ctx'', .ok rest') => (ctx'', .ok (e' :: rest'))

/-- Pin-list expansion of one entry (`wireviz.py` lines 156-162).  A list entry
becomes one `{designator: 1}` record per element — the source attaches the
literal pin `1` to every element of a list entry.  A mapping entry expands its
range into one `{designator: pin}` record per pin.  A bare string entry is
untouched by the source loop; it cannot occur here because normalization already
replaced every string entry (modelled as the empty record list). -/
def pinExpandEntry : SetEntry → Except WvError (List (String × PVal))
  | .list l => .ok (l.map (fun designator => (designator, PVal.int 1)))
  | .dict k v =>
    match expand v with
    | .ok pins => .ok (pins.map (fun p => (k, PVal.int p)))
    | .error e => .error e
  | .str _ => .ok []

/-- Pin-list expansion over the whole set, in order. -/
def pinExpand : List SetEntry → Except WvError (List (List (String × PVal)))
  | [] => .ok []
  | e :: rest =>
    match pinExpandEntry e with
    | .error er => .error er
    | .ok e' =>
      match pinExpand rest with
      | .error er => .error er
      | .ok rest' => .ok (e' :: rest')

/-- The stages of `parse` up to `connection set @3`: count determination, width
normalization, designator resolution and pin-list expansion of one set. -/
def stageThree (ctx : ResCtx) (cs : List SetEntry) :
    Except WvError (List (List (String × PVal))) :=
  match determineCount cs with
  | .error e => .error e
  | .ok n =>
    match resolveEntries ctx (normalizeSet n cs) with
    | (_, .error e) => .error e
    | (_, .ok cs2) => pinExpand cs2

/-- Entity materialization for one record (`wireviz.py` lines 169-186): an
existing connector instance is kept, else a connector template is instantiated,
else an existing cable instance is kept, else a cable template is instantiated,
else the unknown template is skipped with only a printed note.  A designator
missing from the registry cannot occur for resolved entries (Python would raise
`KeyError`); it is modelled as the skip branch. -/
def materializeOne (tconn : List (String × Connector)) (tcab : List (String × Cable))
    (ctx : ResCtx) (h : Harness) (designator : String) : Harness :=
  match lookupA ctx.desigs designator with
  | none => h
  | some template =>
    if (lookupA h.connectors designator).isSome then h
    else
      match lookupA tconn template with
      | some ct => { h with connectors := h.connectors ++ [(designator, ct)] }
      | none =>
        if (lookupA h.cables designator).isSome then h
        else
          match lookupA tcab template with
          | some ce => { h with cables := h.cables ++ [(designator, ce)] }
          | none => h

/-- Entity materialization over the expanded set (`wireviz.py` lines 169-186),
entry by entry, record by record. -/
def materializeAll (tconn : List (String × Connector)) (tcab : List (String × Cable))
    (ctx : ResCtx) (h : Harness) (cs : List (List (String × PVal))) : Harness :=
  cs.foldl (fun hh entry => entry.foldl (fun h2 r => materializeOne tconn tcab ctx h2 r.1) hh) h

/-- Python `zip(*lists)` with explicit fuel: stops at the shortest list (the
fuel — the length of the first list — bounds the zip length). -/
def pyZipAux : Nat → List (List α) → List (List α)
  | 0, _ => []
  | fuel + 1, ls =>
    match ls.mapM List.head? with
    | none => []
    | some heads => heads :: pyZipAux fuel (ls.map List.tail)

/-- The transposition `list(map(list, zip(*connection_set)))` of `wireviz.py`
line 190. -/
def pyZip (ls : List (List α)) : List (List α) :=
  match ls with
  | [] => []
  | l :: _ => pyZipAux l.length ls

example : pyZip [[1, 2], [3, 4], [5, 6]] = [[1, 3, 5], [2, 4, 6]] := by decide
example : pyZip [[1, 2], [], [5, 6]] = ([] : List (List Nat)) := by decide

/-- The linking loop over one chain (`wireviz.py` lines 196-216): at every cable
position, connect it to the neighboring records (absent neighbors give `None`);
a raise from `Harness.connect` aborts with the harness as it then was. -/
def linkChainGo (h : Harness) (prev : Option (String × PVal)) :
    List (String × PVal) → Harness × Option WvError
  | [] => (h, none)
  | (d, p) :: rest =>
    if (lookupA h.cables d).isSome then
      match connectH h (prev.map (fun r => r.1)) (prev.map (fun r => r.2)) d p
          (rest.head?.map (fun r => r.1)) (rest.head?.map (fun r => r.2)) with
      | (h', some e) => (h', some e)
      | (h', none) => linkChainGo h' (some (d, p)) rest
    else linkChainGo h (some (d, p)) rest

/-- The linking loop over all chains (`wireviz.py` lines 194-216). -/
def linkChains (h : Harness) : List (List (String × PVal)) → Harness × Option WvError
  | [] => (h, none)
  | c :: rest =>
    match linkChainGo h none c with
    | (h', some e) => (h', some e)
    | (h', none) => linkChains h' rest

/-- Processing of one connection set (`wireviz.py` lines 101-216): count
determination, width normalization, designator resolution, pin expansion,
materialization, transposition, linking.  On error the returned context and
harness are the state at the moment of the raise. -/
def processSet (tconn : List (String × Connector)) (tcab : List (String × Cable))
    (ctx : ResCtx) (h : Harness) (cs : List SetEntry) :
    ResCtx × Harness × Option WvError :=
  match determineCount cs with
  | .error e => (ctx, h, some e)
  | .ok n =>
    match resolveEntries ctx (normalizeSet n cs) with
    | (ctx', .error e) => (ctx', h, some e)
    | (ctx', .ok cs2) =>
      match pinExpand cs2 with
      | .error e => (ctx', h, some e)
      | .ok cs3 =>
        let h1 := materializeAll tconn tcab ctx' h cs3
        match linkChains h1 (pyZip cs3) with
        | (h2, some e) => (ctx', h2, some e)
        | (h2, none) => (ctx', h2, none)

/-- Processing of all connection sets in order, stopping at the first error. -/
def parseSets (tconn : List (String × Connector)) (tcab : List (String × Cable))
    (ctx : ResCtx) (h : Harness) : List (List SetEntry) → ResCtx × Harness × Option WvError
  | [] => (ctx, h, none)
  | s :: rest =>
    match processSet tconn tcab ctx h s with
    | (ctx', h', some e) => (ctx', h', some e)
    | (ctx', h', none) => parseSets tconn tcab ctx' h' rest

/-- The connection-processing core of `parse` on one document: the template
dictionaries are collected from the `connectors` and `cables` sections, and the
connection sets are processed against an initially empty harness and a fresh
resolution context. -/
def parseDoc (tconn : List (String × Connector)) (tcab : List (String × Cable))
    (sets : List (List SetEntry)) : Harness × Option WvError :=
  match parseSets tconn tcab ⟨[], []⟩ {} sets with
  | (_, h, e) => (h, e)

/-! ## The BOM aggregator (`Harness.py`, `bom` lines 399-481, `get_bom_index`
lines 483-489) -/

/-- Splitting a character list at every whitespace character. -/
def splitWhite : List Char → List (List Char)
  | [] => [[]]
  | x :: xs =>
    let r := splitWhite xs
    if x.isWhitespace then [] :: r
    else
      match r with
      | [] => [[x]]
      | y :: ys => (x :: y) :: ys

/-- Modelled from the spec: `wv_helper.clean_whitespace` (not under `src/`) —
"whitespace-collapsed text fields": runs of whitespace collapse to one space,
leading and trailing whitespace is dropped. -/
def cleanWS (s : String) : String :=
  String.intercalate " " (((splitWhite s.data).filter (fun w => w ≠ [])).map String.mk)

example : cleanWS "  a   b " = "a b" := by decide

/-- `clean_whitespace` over an optional text field (`None` passes through). -/
def cleanOpt (v : Option String) : Option String := v.map cleanWS

/-- Lexicographic comparison of character lists by code point: the model of
Python string comparison (`String.le` of the host library iterates a byte
iterator, which the kernel cannot evaluate; this structural version can). -/
def charListLe : List Char → List Char → Bool
  | [], _ => true
  | _ :: _, [] => false
  | a :: as, b :: bs =>
    if a < b then true
    else if b < a then false
    else charListLe as bs

/-- Python `s <= t` on strings (lexicographic by code point). -/
def pyLe (a b : String) : Prop := charListLe a.data b.data = true

instance instDecPyLe : DecidableRel pyLe := fun a b =>
  instDecidableEqBool (charListLe a.data b.data) true

theorem charListLe_total : ∀ a b : List Char, charListLe a b = true ∨ charListLe b a = true
  | [], _ => Or.inl rfl
  | _ :: _, [] => Or.inr rfl
  | a :: as, b :: bs => by
    rcases lt_trichotomy a b with h | h | h
    · left
      simp [charListLe, h]
    · subst h
      rcases charListLe_total as bs with ih | ih
      · left
        simpa [charListLe] using ih
      · right
        simpa [charListLe] using ih
    · right
      simp [charListLe, h]

theorem charListLe_trans : ∀ a b c : List Char, charListLe a b = true →
    charListLe b c = true → charListLe a c = true
  | [], _, _, _, _ => rfl
  | _ :: _, [], _, h1, _ => by simp [charListLe] at h1
  | _ :: _, _ :: _, [], _, h2 => by simp [charListLe] at h2
  | a :: as, b :: bs, c :: cs, h1, h2 => by
    by_cases hab : a < b
    · by_cases hbc : b < c
      · simp [charListLe, lt_trans hab hbc]
      · by_cases hcb : c < b
        · simp [charListLe, hbc, hcb] at h2
        · have : b = c := le_antisymm (not_lt.1 hcb) (not_lt.1 hbc)
          subst this
          simp [charListLe, hab]
    · by_cases hba : b < a
      · simp [charListLe, hab, hba] at h1
      · have hableq : a = b := le_antisymm (not_lt.1 hba) (not_lt.1 hab)
        subst hableq
        simp only [charListLe, if_neg hab, if_neg hba] at h1
        by_cases hac : a < c
        · simp [charListLe, hac]
        · by_cases hca : c < a
          · simp [charListLe, hac, hca] at h2
          · simp only [charListLe, if_neg hac, if_neg hca] at h2 ⊢
            exact charListLe_trans as bs cs h1 h2

theorem charListLe_antisymm : ∀ a b : List Char, charListLe a b = true →
    charListLe b a = true → a = b
  | [], [], _, _ => rfl
  | [], _ :: _, _, h2 => by simp [charListLe] at h2
  | _ :: _, [], h1, _ => by simp [charListLe] at h1
  | a :: as, b :: bs, h1, h2 => by
    by_cases hab : a < b
    · simp [charListLe, hab, lt_asymm hab] at h2
    · by_cases hba : b < a
      · simp [charListLe, hab, hba] at h1
      · have : a = b := le_antisymm (not_lt.1 hba) (not_lt.1 hab)
        subst this
        simp only [charListLe, if_neg hab] at h1 h2
        rw [charListLe_antisymm as bs h1 h2]

theorem str_eq_of_data_eq {a b : String} (h : a.data = b.data) : a = b := by
  cases a
  cases b
  exact congrArg String.mk h

theorem pyLe_total (a b : String) : pyLe a b ∨ pyLe b a := charListLe_total a.data b.data

theorem pyLe_trans {a b c : String} (h1 : pyLe a b) (h2 : pyLe b c) : pyLe a c :=
  charListLe_trans a.data b.data c.data h1 h2

theorem pyLe_antisymm {a b : String} (h1 : pyLe a b) (h2 : pyLe b a) : a = b :=
  str_eq_of_data_eq (charListLe_antisymm a.data b.data h1 h2)

instance : IsTotal String pyLe := ⟨pyLe_total⟩

instance : IsTrans String pyLe := ⟨fun _ _ _ => pyLe_trans⟩

instance : IsAntisymm String pyLe := ⟨fun _ _ => pyLe_antisymm⟩

/-- The grouping key of `Harness.bom` line 462:
`(item, unit, manufacturer, mpn, pn)`. -/
structure BomKey where
  item : String
  unit : Option String
  manufacturer : Option String
  mpn : Option String
  pn : Option String
deriving DecidableEq, Repr

/-- The grouping key of one BOM entry. -/
def keyOf (e : BomEntry) : BomKey :=
  ⟨e.item, e.unit, e.manufacturer, e.mpn, e.pn⟩

/-- First-occurrence deduplication with the set of already seen elements. -/
def dedupKeepFirstAux [DecidableEq α] (seen : List α) : List α → List α
  | [] => []
  | a :: l =>
    if a ∈ seen then dedupKeepFirstAux seen l
    else a :: dedupKeepFirstAux (a :: seen) l

/-- First-occurrence deduplication: the key order of a Python `Counter`/`dict`
built by insertion, and the effect of `dict.fromkeys` on designators. -/
def dedupKeepFirst [DecidableEq α] (l : List α) : List α := dedupKeepFirstAux [] l

example : dedupKeepFirst [3, 1, 3, 2, 1] = [3, 1, 2] := by decide

/-- `group_entries` of `Harness.bom` line 464: the entries of one group, in
entry order. -/
def groupOf (es : List BomEntry) (k : BomKey) : List BomEntry :=
  es.filter (fun e => keyOf e = k)

/-- Round half to even of a rational to the nearest integer, computed on the
numerator and denominator so that the kernel can evaluate it. -/
def roundHE (s : ℚ) : ℤ :=
  let fl := s.num.fdiv s.den
  let r := s.num - fl * s.den
  if 2 * r < (s.den : ℤ) then fl
  else if (s.den : ℤ) < 2 * r then fl + 1
  else if fl % 2 = 0 then fl else fl + 1

/-- Python `round(x, 3)` on the exact rational total: round half to even at the
third decimal.  (The source rounds a binary float; the spec leaves the
tie-breaking rule explicitly unspecified, and ties at the fourth decimal are the
only place any two rules differ.) -/
def round3 (q : ℚ) : ℚ := (roundHE (q * 1000) : ℚ) / 1000

/-- The aggregated row of one group (`Harness.bom` lines 464-475): all fields of
the group's first entry, the quantity summed and rounded to 3 decimals, and the
designators collected, deduplicated keeping first occurrence, and sorted. -/
def rowFor (es : List BomEntry) (k : BomKey) : BomEntry :=
  let g := groupOf es k
  let h0 := g.headD ⟨"", 0, none, [], none, none, none⟩
  { h0 with
      qty := round3 ((g.map (fun e => e.qty)).sum),
      designators :=
        List.insertionSort pyLe
          (dedupKeepFirst (g.flatMap (fun e => e.designators))) }

/-- The group keys in first-occurrence order (`Counter` iteration order). -/
def bomKeys (es : List BomEntry) : List BomKey := dedupKeepFirst (es.map keyOf)

/-- The aggregated rows before sorting, one per group, in `Counter` order. -/
def bomRows (es : List BomEntry) : List BomEntry := (bomKeys es).map (rowFor es)

/-- `Harness.bom` line 477: the rows sorted by item description (Python `sorted`
is stable; `insertionSort` places an earlier element before a tied later one,
matching it). -/
def bomSorted (es : List BomEntry) : List BomEntry :=
  List.insertionSort (fun a b => pyLe a.item b.item) (bomRows es)

/-- `Harness.bom` line 480: attach the sequential ids `1, 2, ...` after the
sort. -/
def bomAggregate (es : List BomEntry) : List (Nat × BomEntry) :=
  List.enumFrom 1 (bomSorted es)

/-- A truthy optional text prefixed for a description, as in
`(f', {x}' if x else '')`: Python treats `None` and `''` alike here. -/
def optText (pre : String) (v : Option String) : String :=
  match v with
  | some s => if s = "" then "" else pre ++ s
  | none => ""

/-- The connector description of `Harness.bom` lines 408-412. -/
def connDescription (c : Connector) : String :=
  "Connector" ++ optText ", " c.ctype ++ optText ", " c.subtype
    ++ (if c.show_pincount then ", " ++ toString c.pincount ++ " pins" else "")
    ++ optText ", " c.color

/-- The designators contribution of a named component
(`name if show_name else None`). -/
def desigOf (name : String) (show_name : Bool) : List String :=
  if show_name then [name] else []

/-- `Harness.get_additional_component_bom` (lines 384-397) for one component. -/
def additionalBom (name : String) (show_name : Bool)
    (parts : List AdditionalComponent) : List BomEntry :=
  parts.map fun part =>
    ⟨part.description, part.qty * part.multiplier, part.unit,
     desigOf name show_name, part.manufacturer, part.mpn, part.pn⟩

/-- The BOM entries of one connector (`Harness.bom` lines 406-419). -/
def connBomEntries (name : String) (c : Connector) : List BomEntry :=
  (if c.ignore_in_bom then []
   else
     [⟨connDescription c, 1, none, desigOf name c.show_name,
       c.manufacturer, c.mpn, c.pn⟩])
  ++ additionalBom name c.show_name c.additional_components

/-- The cable description of `Harness.bom` lines 427-431 (non-bundle). -/
def cableDescription (c : Cable) : String :=
  "Cable" ++ optText ", " c.ctype ++ ", " ++ toString c.wirecount
    ++ (match c.gauge with
        | some g => if g = "" then " wires" else " x " ++ g ++ " " ++ c.gauge_unit
        | none => " wires")
    ++ (if c.shield then " shielded" else "")

/-- The per-wire description of `Harness.bom` lines 439-442 (bundle). -/
def wireDescription (c : Cable) (color : String) : String :=
  "Wire" ++ optText ", " c.ctype
    ++ (match c.gauge with
        | some g => if g = "" then "" else ", " ++ g ++ " " ++ c.gauge_unit
        | none => "")
    ++ (if color = "" then "" else ", " ++ color)

/-- The BOM entries of one cable (`Harness.bom` lines 423-450): one entry for a
plain cable, one entry per wire for a bundle (with per-wire part fields via
`index_if_list`), plus its additional components. -/
def cableBomEntries (name : String) (c : Cable) : List BomEntry :=
  (if c.ignore_in_bom then []
   else if ¬ c.category_bundle then
     [⟨cableDescription c, c.length, some "m", desigOf name c.show_name,
       pnScalar c.manufacturer, pnScalar c.mpn, pnScalar c.pn⟩]
   else
     (List.enum c.colors).map fun ic =>
       ⟨wireDescription c ic.2, c.length, some "m", desigOf name c.show_name,
        index_if_list c.manufacturer ic.1, index_if_list c.mpn ic.1,
        index_if_list c.pn ic.1⟩)
  ++ additionalBom name c.show_name c.additional_components

/-- All raw BOM entries of a harness in source order (`Harness.bom` lines
403-456): connectors, then cables, then the freestanding lines. -/
def mkBomEntries (h : Harness) : List BomEntry :=
  (h.connectors.flatMap fun p => connBomEntries p.1 p.2)
    ++ (h.cables.flatMap fun p => cableBomEntries p.1 p.2)
    ++ h.additional_bom_items

/-- `Harness.bom` line 459: whitespace cleanup of the text fields of one entry.
(In the source a single-string `designators` field would also be collapsed and a
list would pass through unchanged; the list model keeps designators as they
are.) -/
def cleanEntry (e : BomEntry) : BomEntry :=
  { e with
      item := cleanWS e.item, unit := cleanOpt e.unit,
      manufacturer := cleanOpt e.manufacturer, mpn := cleanOpt e.mpn,
      pn := cleanOpt e.pn }

/-- The full BOM computation of `Harness.bom` (ignoring the cache): entry
generation, whitespace cleanup, grouping, aggregation, sorting, id assignment. -/
def bomPure (h : Harness) : List (Nat × BomEntry) :=
  bomAggregate ((mkBomEntries h).map cleanEntry)

/-- `Harness.bom` with its memoization (lines 399-402): a truthy `_bom` cache is
returned as is; otherwise the BOM is computed and stored.  (An empty cached list
is falsy in Python and would be recomputed.) -/
def bomM (h : Harness) : List (Nat × BomEntry) × Harness :=
  if h.bomCache ≠ [] then (h.bomCache, h)
  else
    let b := bomPure h
    (b, { h with bomCache := b })

/-- `Harness.get_bom_index` (lines 483-489): clean the search tuple, query the
(memoized) BOM, return the id of the first row whose grouping key matches. -/
def get_bom_index (h : Harness) (item : String)
    (unit manufacturer mpn pn : Option String) : Option Nat × Harness :=
  let t : BomKey :=
    ⟨cleanWS item, cleanOpt unit, cleanOpt manufacturer, cleanOpt mpn, cleanOpt pn⟩
  match bomM h with
  | (b, h') => ((b.find? (fun r => keyOf r.2 = t)).map (fun r => r.1), h')

/-! ## Claim C10: `Harness.connect` is atomic on error -/

/-- C10. `Harness.connect` is atomic on error: whenever it raises (ambiguous pin
reference, duplicate pin label, unknown pin — or a missing cable), no connection
record has been appended and the harness is exactly as it was before the call;
all validation precedes the single mutating call to the cable. -/
theorem claim_c10_connect_atomic (h : Harness) (fn : Option String) (fp : Option PVal)
    (vn : String) (vp : PVal) (tn : Option String) (tp : Option PVal) (e : WvError)
    (herr : (connectH h fn fp vn vp tn tp).2 = some e) :
    (connectH h fn fp vn vp tn tp).1 = h := by
  unfold connectH at herr ⊢
  cases h1 : runSide h.connectors fn fp with
  | error e1 => simp [h1]
  | ok s1 =>
    cases h2 : runSide h.connectors tn tp with
    | error e2 => simp [h1, h2]
    | ok s2 =>
      cases h3 : lookupA h.cables vn with
      | none => simp [h1, h2, h3]
      | some cab => simp [h1, h2, h3] at herr

/-- A harness on which `connect` raises `UnknownPin`: pin `5` is not a pin of
`X`. -/
def exC10harness : Harness :=
  { connectors := [("X", { pins := [.int 1] })], cables := [("W", { wirecount := 1 })] }

/-- Witness for C10 at a concrete failing `connect`: the call raises
`UnknownPin` and leaves the harness unchanged. -/
theorem claim_c10_connect_atomic_witness :
    (connectH exC10harness (some "X") (some (.int 5)) "W" (.int 1) none none).2 =
        some (.unknownPin "X" (some (.int 5)))
      ∧ (connectH exC10harness (some "X") (some (.int 5)) "W" (.int 1) none none).1 =
        exC10harness :=
  ⟨by decide,
   claim_c10_connect_atomic exC10harness (some "X") (some (.int 5)) "W" (.int 1) none none
     (.unknownPin "X" (some (.int 5))) (by decide)⟩

/-! ## Claim C2: pin resolution and validation in `Harness.connect` -/

/-- The connector of the spec's pin-label scenario: `pins=[1,2]`,
`pinlabels=["A","1"]`.  The YAML pins are integers and the labels strings; the
reference `1` (what the document token `1` or `"1"` becomes after expansion) is
the integer, which matches the `pins` entry only — `1 == "1"` is `False` in
Python. -/
def exC2conn : Connector := { pins := [.int 1, .int 2], pinlabels := [.str "A", .str "1"] }

/-- The harness of the pin-label scenario, with one cable to connect through. -/
def exC2harness : Harness :=
  { connectors := [("X1", exC2conn)], cables := [("W", { wirecount := 1 })] }

/-- The cable of the scenario after the `"A"` connect: one record appended with
the substituted pin. -/
def exC2cableAfter : Cable :=
  { wirecount := 1, connections := [⟨some "X1", some (.int 1), .int 1, none, none⟩] }

/-- The harness of the scenario after the `"A"` connect. -/
def exC2after : Harness :=
  { exC2harness with cables := [("W", exC2cableAfter)] }

/-- C2. Pin resolution in `Harness.connect`: a token matching exactly one
`pinlabels` entry is substituted by the corresponding `pins` entry; a token
matching `pins` and `pinlabels` at different positions is a fatal ambiguity,
while matches at the same position are accepted without error; a label occurring
more than once is a fatal duplicate; a final resolved value outside `pins` is an
unknown-pin error.  For the scenario connector (`pins=[1,2]`,
`pinlabels=["A","1"]`), referencing pin `1` resolves to pin `1` without error
(it is a direct `pins` match; the label `"1"` is a string and does not collide),
and referencing `"A"` resolves to pin `1` by label lookup. -/
theorem claim_c2_pin_resolution (c : Connector) (nm : String) (p : PVal)
    (hlen : c.pins.length = c.pinlabels.length) :
    (c.pinlabels.count p = 1 →
      ¬(p ∈ c.pins ∧ c.pins.indexOf p ≠ c.pinlabels.indexOf p) →
      checkSideCore c nm (some p) =
        .ok (some (c.pins.getD (c.pinlabels.indexOf p) p)))
  ∧ (p ∈ c.pins → p ∈ c.pinlabels → c.pins.indexOf p ≠ c.pinlabels.indexOf p →
      checkSideCore c nm (some p) = .error (.ambiguousPinReference nm p))
  ∧ (p ∈ c.pins → p ∈ c.pinlabels → c.pins.indexOf p = c.pinlabels.indexOf p →
      c.pinlabels.count p = 1 → checkSideCore c nm (some p) = .ok (some p))
  ∧ (1 < c.pinlabels.count p →
      ¬(p ∈ c.pins ∧ c.pins.indexOf p ≠ c.pinlabels.indexOf p) →
      checkSideCore c nm (some p) = .error (.duplicatePinLabel nm p))
  ∧ (p ∉ c.pinlabels → p ∉ c.pins →
      checkSideCore c nm (some p) = .error (.unknownPin nm (some p)))
  ∧ (p ∉ c.pinlabels → p ∈ c.pins → checkSideCore c nm (some p) = .ok none)
  ∧ checkSideCore exC2conn "X1" (some (.int 1)) = .ok none
  ∧ checkSideCore exC2conn "X1" (some (.str "A")) = .ok (some (.int 1))
  ∧ (connectH exC2harness (some "X1") (some (.int 1)) "W" (.int 1) none none).2 = none
  ∧ connectH exC2harness (some "X1") (some (.str "A")) "W" (.int 1) none none =
      (exC2after, none) := by
  have hsub : ∀ hmemL : p ∈ c.pinlabels, ¬ 1 < c.pinlabels.count p →
      ¬(p ∈ c.pins ∧ p ∈ c.pinlabels ∧ c.pins.indexOf p ≠ c.pinlabels.indexOf p) →
      checkSideCore c nm (some p) =
        .ok (some (c.pins.getD (c.pinlabels.indexOf p) p)) := by
    intro hmemL hcnt hcond
    have hidx : c.pinlabels.indexOf p < c.pins.length := by
      rw [hlen]
      exact List.indexOf_lt_length.2 hmemL
    have hp2 : c.pins.getD (c.pinlabels.indexOf p) p ∈ c.pins := by
      rw [List.getD_eq_getElem?_getD, List.getElem?_eq_getElem hidx]
      exact List.getElem_mem hidx
    simp only [checkSideCore]
    rw [if_neg hcond, if_pos hmemL, if_neg hcnt, if_pos hp2]
  refine ⟨?_, ?_, ?_, ?_, ?_, ?_, by decide, by decide, by decide, by decide⟩
  · intro hcount hnamb
    have hmemL : p ∈ c.pinlabels := List.count_pos_iff.1 (by omega)
    refine hsub hmemL (by omega) ?_
    rintro ⟨h1, _, h3⟩
    exact hnamb ⟨h1, h3⟩
  · intro h1 h2 h3
    simp only [checkSideCore]
    rw [if_pos ⟨h1, h2, h3⟩]
  · intro h1 h2 heq hcount
    have := hsub h2 (by omega) (by rintro ⟨_, _, h3⟩; exact h3 heq)
    rw [this]
    have hidx : c.pins.indexOf p < c.pins.length := List.indexOf_lt_length.2 h1
    rw [← heq, List.getD_eq_getElem?_getD, List.getElem?_eq_getElem hidx]
    simp [List.getElem_indexOf hidx]
  · intro hcount hnamb
    have hmemL : p ∈ c.pinlabels := List.count_pos_iff.1 (by omega)
    have hcond : ¬(p ∈ c.pins ∧ p ∈ c.pinlabels ∧ c.pins.indexOf p ≠ c.pinlabels.indexOf p) := by
      rintro ⟨h1, _, h3⟩
      exact hnamb ⟨h1, h3⟩
    simp only [checkSideCore]
    rw [if_neg hcond, if_pos hmemL, if_pos hcount]
  · intro hnl hnp
    simp only [checkSideCore]
    rw [if_neg (by rintro ⟨h1, _, _⟩; exact hnp h1), if_neg hnl, if_neg hnp]
  · intro hnl hp
    simp only [checkSideCore]
    rw [if_neg (by rintro ⟨_, h2, _⟩; exact hnl h2), if_neg hnl, if_pos hp]

/-- Witness for C2: the scenario connector satisfies the length invariant, and
applying the theorem to it resolves the label `"A"` to the corresponding pin. -/
theorem claim_c2_pin_resolution_witness :
    checkSideCore exC2conn "X1" (some (.str "A")) =
      .ok (some (exC2conn.pins.getD (exC2conn.pinlabels.indexOf (.str "A")) (.str "A"))) :=
  (claim_c2_pin_resolution exC2conn "X1" (.str "A") (by decide)).1 (by decide) (by decide)

/-! ## Claim C5: deterministic per-template auto-designators -/

/-- C5. Resolving a token with template `X` and empty designator when the
per-template counter reads `c` (0 when absent, so counting starts at 1) yields
the designator `_X_(c+1)`, increments only template `X`'s counter, leaves every
other template's counter untouched, and registers the new designator; in
particular the first two auto-designators for template `X` are `_X_1` and
`_X_2`.  The freshness hypothesis rules out a handwritten designator that
happens to equal the generated name (the source would then apply its conflict
check to it). -/
theorem claim_c5_autogen (ctx : ResCtx) (X inp : String)
    (hc : containsChar '.' inp = true)
    (hs : splitStr '.' inp = [X, ""])
    (hfree : lookupA ctx.desigs
      ("_" ++ X ++ "_" ++ toString ((lookupA ctx.autogen X).getD 0 + 1)) = none) :
    resolve_designator ctx inp =
      ({ desigs := ctx.desigs ++
            [("_" ++ X ++ "_" ++ toString ((lookupA ctx.autogen X).getD 0 + 1), X)],
          autogen := setA ctx.autogen X ((lookupA ctx.autogen X).getD 0 + 1) },
        .ok (X, "_" ++ X ++ "_" ++ toString ((lookupA ctx.autogen X).getD 0 + 1)))
  ∧ lookupA (setA ctx.autogen X ((lookupA ctx.autogen X).getD 0 + 1)) X =
      some ((lookupA ctx.autogen X).getD 0 + 1)
  ∧ (∀ Y, Y ≠ X →
      lookupA (setA ctx.autogen X ((lookupA ctx.autogen X).getD 0 + 1)) Y =
        lookupA ctx.autogen Y)
  ∧ resolve_designator ⟨[], []⟩ "X." = (⟨[("_X_1", "X")], [("X", 1)]⟩, .ok ("X", "_X_1"))
  ∧ resolve_designator ⟨[("_X_1", "X")], [("X", 1)]⟩ "X." =
      (⟨[("_X_1", "X"), ("_X_2", "X")], [("X", 2)]⟩, .ok ("X", "_X_2")) := by
  refine ⟨?_, lookupA_setA_self _ _ _, fun Y hY => lookupA_setA_ne _ _ _ _ hY,
    by decide, by decide⟩
  unfold resolve_designator
  simp only [hc, hs, if_true, reduceIte]
  simp only [hfree]

/-- Witness for C5: the theorem applied to a concrete context whose counter for
`"X"` already reads 2 generates `_X_3`. -/
theorem claim_c5_autogen_witness :
    resolve_designator ⟨[], [("X", 2)]⟩ "X." =
      (⟨[("_X_3", "X")], [("X", 3)]⟩, .ok ("X", "_X_3")) := by
  have h := (claim_c5_autogen ⟨[], [("X", 2)]⟩ "X" "X." (by decide) (by decide)
    (by decide)).1
  simpa using h

/-! ## Claim C6: designator re-resolution (corrected) -/

/-- Counterexample to C6 as stated: the designator `D` is bound to template
`T ≠ D`, yet re-resolving the bare token `D` (which the claim reads as template
`D` and designator `D`) is accepted as a plain reference — the source's
bare-token branch never raises, while the claim demands a fatal
`DesignatorConflict`. -/
theorem claim_c6_counterexample :
    lookupA (ResCtx.mk [("D", "T")] []).desigs "D" = some "T"
  ∧ "T" ≠ "D"
  ∧ resolve_designator ⟨[("D", "T")], []⟩ "D" = (⟨[("D", "T")], []⟩, .ok ("D", "D")) := by
  decide

/-- C6 (amended). Re-resolving the same designator to the same template with the
dotted form is a no-op; re-binding it to a different template with the dotted
form is a fatal `DesignatorConflict`; but a bare token naming an existing
designator is always accepted unchanged as a reference to it, whatever template
it is bound to — the bare-token form never raises. -/
theorem claim_c6_reresolution :
    (∀ (ctx : ResCtx) (T D inp : String), containsChar '.' inp = true →
      splitStr '.' inp = [T, D] → D ≠ "" → lookupA ctx.desigs D = some T →
      resolve_designator ctx inp = (ctx, .ok (T, D)))
  ∧ (∀ (ctx : ResCtx) (T T' D inp : String), containsChar '.' inp = true →
      splitStr '.' inp = [T, D] → D ≠ "" → lookupA ctx.desigs D = some T' → T' ≠ T →
      resolve_designator ctx inp = (ctx, .error (.designatorConflict D T' T)))
  ∧ (∀ (ctx : ResCtx) (T' inp : String), containsChar '.' inp = false →
      lookupA ctx.desigs inp = some T' →
      resolve_designator ctx inp = (ctx, .ok (inp, inp))) := by
  refine ⟨?_, ?_, ?_⟩
  · intro ctx T D inp hc hs hD hbound
    unfold resolve_designator
    simp only [hc, hs, if_true, hD, reduceIte]
    simp only [hbound]
    simp
  · intro ctx T T' D inp hc hs hD hbound hne
    unfold resolve_designator
    simp only [hc, hs, if_true, hD, reduceIte]
    simp only [hbound]
    simp [hne]
  · intro ctx T' inp hc hbound
    unfold resolve_designator
    simp only [hc, Bool.false_eq_true, if_false, hbound]

/-- Witness for C6: the amended behaviors at concrete inputs — `T.D` twice is a
no-op, `S.D` afterwards conflicts, and a bare re-reference of `D` is accepted. -/
theorem claim_c6_reresolution_witness :
    resolve_designator ⟨[("D", "T")], []⟩ "T.D" = (⟨[("D", "T")], []⟩, .ok ("T", "D"))
  ∧ resolve_designator ⟨[("D", "T")], []⟩ "S.D" =
      (⟨[("D", "T")], []⟩, .error (.designatorConflict "D" "T" "S"))
  ∧ resolve_designator ⟨[("D", "T")], []⟩ "D" = (⟨[("D", "T")], []⟩, .ok ("D", "D")) :=
  ⟨claim_c6_reresolution.1 ⟨[("D", "T")], []⟩ "T" "D" "T.D" (by decide) (by decide)
      (by decide) (by decide),
   claim_c6_reresolution.2.1 ⟨[("D", "T")], []⟩ "S" "T" "D" "S.D" (by decide) (by decide)
      (by decide) (by decide) (by decide),
   claim_c6_reresolution.2.2 ⟨[("D", "T")], []⟩ "T" "D" (by decide) (by decide)⟩

/-! ## Claim C9: the BOM is computed at most once per harness -/

/-- C9. BOM memoization: once a call to `bom` has returned a non-trivial (i.e.
non-empty, hence truthy) result, every later call — including the
`get_bom_index` queries made while building labels and exporting — returns the
cached list unchanged and leaves the harness state fixed. -/
theorem claim_c9_bom_memoized (h : Harness) (hnz : (bomM h).1 ≠ []) :
    bomM (bomM h).2 = ((bomM h).1, (bomM h).2)
  ∧ ∀ (item : String) (unit manufacturer mpn pn : Option String),
      (get_bom_index (bomM h).2 item unit manufacturer mpn pn).2 = (bomM h).2 := by
  by_cases hc : h.bomCache = []
  · have h1 : bomM h = (bomPure h, { h with bomCache := bomPure h }) := by
      simp [bomM, hc]
    have hb : bomPure h ≠ [] := by
      rw [h1] at hnz
      exact hnz
    constructor
    · rw [h1]
      simp [bomM, hb]
    · intro item unit manufacturer mpn pn
      rw [h1]
      simp [get_bom_index, bomM, hb]
  · have h1 : bomM h = (h.bomCache, h) := by simp [bomM, hc]
    constructor
    · rw [h1]
      simp [bomM, hc]
    · intro item unit manufacturer mpn pn
      rw [h1]
      simp [get_bom_index, bomM, hc]

/-- A harness whose BOM is non-empty: one connector. -/
def exC9harness : Harness := { connectors := [("J1", {})] }

/-- Witness for C9: on the one-connector harness the first `bom` call returns a
non-empty list, and the theorem gives that the second call returns the cached
pair unchanged. -/
theorem claim_c9_bom_memoized_witness :
    bomM (bomM exC9harness).2 = ((bomM exC9harness).1, (bomM exC9harness).2)
  ∧ (get_bom_index (bomM exC9harness).2 "x" none none none none).2 =
      (bomM exC9harness).2 :=
  ⟨(claim_c9_bom_memoized exC9harness (by decide)).1,
   (claim_c9_bom_memoized exC9harness (by decide)).2 "x" none none none none⟩

/-! ## Claim C3: parallel-count determination (corrected) -/

theorem one_lt_length_of_two_mem {α : Type _} {l : List α} {a b : α}
    (ha : a ∈ l) (hb : b ∈ l) (hne : a ≠ b) : 1 < l.length := by
  match l with
  | [] => cases ha
  | [x] =>
    simp only [List.mem_singleton] at ha hb
    exact absurd (ha.trans hb.symm) hne
  | x :: y :: t =>
    simp only [List.length_cons]
    omega

theorem dedup_length_le_one {l : List Nat} {n : Nat} (hall : ∀ x ∈ l, x = n) :
    l.dedup.length ≤ 1 := by
  cases hd : l.dedup with
  | nil => simp
  | cons a t =>
    cases t with
    | nil => simp
    | cons b t2 =>
      exfalso
      have hnd := l.nodup_dedup
      rw [hd] at hnd
      have ha : a ∈ l.dedup := by rw [hd]; exact List.mem_cons_self _ _
      have hb : b ∈ l.dedup := by rw [hd]; simp
      have ha' : a = n := hall a (List.mem_dedup.1 ha)
      have hb' : b = n := hall b (List.mem_dedup.1 hb)
      rcases List.nodup_cons.1 hnd with ⟨hnot, _⟩
      exact hnot (by rw [ha', ← hb']; simp)

/-- The filtered count list of `determineCount`. -/
def filteredCounts (counts : List (Option Nat)) : List Nat :=
  (counts.filterMap id).filter (fun n => n ≠ 0)

theorem mem_filteredCounts {counts : List (Option Nat)} {n : Nat} :
    n ∈ filteredCounts counts ↔ some n ∈ counts ∧ n ≠ 0 := by
  simp only [filteredCounts, List.mem_filter, List.mem_filterMap, id, decide_eq_true_eq]
  constructor
  · rintro ⟨⟨a, hmem, rfl⟩, h0⟩
    exact ⟨hmem, h0⟩
  · rintro ⟨hmem, h0⟩
    exact ⟨⟨some n, hmem, rfl⟩, h0⟩

theorem determineCount_ambiguous {cs : List SetEntry} {counts : List (Option Nat)}
    (hc : contributionsOf cs = .ok counts) (hall : ∀ c ∈ counts, c.getD 0 = 0) :
    determineCount cs = .error .ambiguousConnectionCount := by
  have hany : counts.any (fun c => c.getD 0 ≠ 0) = false := by
    simp only [List.any_eq_false, decide_eq_true_eq]
    intro c hcmem
    simp [hall c hcmem]
  unfold determineCount
  simp only [hc]
  rw [hany]
  simp

theorem determineCount_inconsistent {cs : List SetEntry} {counts : List (Option Nat)}
    {a b : Nat} (hc : contributionsOf cs = .ok counts)
    (ha : some a ∈ counts) (hb : some b ∈ counts)
    (ha0 : a ≠ 0) (hb0 : b ≠ 0) (hab : a ≠ b) :
    determineCount cs = .error .inconsistentConnectionCount := by
  have hany : counts.any (fun c => c.getD 0 ≠ 0) = true :=
    List.any_eq_true.2 ⟨some a, ha, by simp [ha0]⟩
  have hma : a ∈ (filteredCounts counts).dedup :=
    List.mem_dedup.2 (mem_filteredCounts.2 ⟨ha, ha0⟩)
  have hmb : b ∈ (filteredCounts counts).dedup :=
    List.mem_dedup.2 (mem_filteredCounts.2 ⟨hb, hb0⟩)
  have hlen : 1 < (filteredCounts counts).dedup.length :=
    one_lt_length_of_two_mem hma hmb hab
  unfold filteredCounts at hlen
  unfold determineCount
  simp only [hc]
  rw [hany]
  rw [if_neg (by simp)]
  rw [if_pos hlen]

theorem determineCount_ok {cs : List SetEntry} {counts : List (Option Nat)} {n : Nat}
    (hc : contributionsOf cs = .ok counts) (hn : some n ∈ counts) (hn0 : n ≠ 0)
    (hall : ∀ m, some m ∈ counts → m ≠ 0 → m = n) :
    determineCount cs = .ok n := by
  have hany : counts.any (fun c => c.getD 0 ≠ 0) = true :=
    List.any_eq_true.2 ⟨some n, hn, by simp [hn0]⟩
  have hallf : ∀ x ∈ filteredCounts counts, x = n := by
    intro x hx
    rcases mem_filteredCounts.1 hx with ⟨hmem, h0⟩
    exact hall x hmem h0
  have hle : (filteredCounts counts).dedup.length ≤ 1 := dedup_length_le_one hallf
  have hmem : n ∈ filteredCounts counts := mem_filteredCounts.2 ⟨hn, hn0⟩
  have hhead : (filteredCounts counts).headD 0 = n := by
    cases hf : filteredCounts counts with
    | nil => rw [hf] at hmem; cases hmem
    | cons x t =>
      have : x = n := hallf x (by rw [hf]; exact List.mem_cons_self _ _)
      simp [this]
  unfold filteredCounts at hle hhead
  unfold determineCount
  simp only [hc]
  rw [hany]
  rw [if_neg (by simp)]
  rw [if_neg (by omega)]
  rw [hhead]

/-- Counterexample to C3 as stated: in the set `[["X1","X1"], []]` the two list
entries reveal the disagreeing counts 2 and 0 ("a list contributes its
length"), yet count determination succeeds with 2 instead of failing with
`InconsistentConnectionCount` — `filter(None, ...)` drops a `0` length exactly
like a `None`. -/
theorem claim_c3_counterexample :
    contribution (SetEntry.list ["X1", "X1"]) = .ok (some 2)
  ∧ contribution (SetEntry.list []) = .ok (some 0)
  ∧ (2 : Nat) ≠ 0
  ∧ determineCount [SetEntry.list ["X1", "X1"], SetEntry.list []] = .ok 2 := by
  decide

/-- C3 (amended). Parallel-count determination inspects every entry — a list
contributes its length, a mapping the expanded length of its pin range, a bare
string nothing — but a contribution of `0` is treated exactly like no
information.  If no entry reveals a nonzero count the set fails with
`AmbiguousConnectionCount`; if two entries reveal disagreeing nonzero counts it
fails with `InconsistentConnectionCount`; in both cases processing stops with
the context and harness untouched, before any connection of the set is applied;
otherwise the count is the (shared) nonzero contribution. -/
theorem claim_c3_count_determination :
    (∀ (s : String), contribution (.str s) = .ok none)
  ∧ (∀ (l : List String), contribution (.list l) = .ok (some l.length))
  ∧ (∀ (k : String) (v : RangeVal) (xs : List Int), expand v = .ok xs →
      contribution (.dict k v) = .ok (some xs.length))
  ∧ (∀ (tconn : List (String × Connector)) (tcab : List (String × Cable))
      (ctx : ResCtx) (h : Harness) (cs : List SetEntry) (counts : List (Option Nat)),
      contributionsOf cs = .ok counts → (∀ c ∈ counts, c.getD 0 = 0) →
      processSet tconn tcab ctx h cs = (ctx, h, some .ambiguousConnectionCount))
  ∧ (∀ (tconn : List (String × Connector)) (tcab : List (String × Cable))
      (ctx : ResCtx) (h : Harness) (cs : List SetEntry) (counts : List (Option Nat))
      (a b : Nat),
      contributionsOf cs = .ok counts → some a ∈ counts → some b ∈ counts →
      a ≠ 0 → b ≠ 0 → a ≠ b →
      processSet tconn tcab ctx h cs = (ctx, h, some .inconsistentConnectionCount))
  ∧ (∀ (cs : List SetEntry) (counts : List (Option Nat)) (n : Nat),
      contributionsOf cs = .ok counts → some n ∈ counts → n ≠ 0 →
      (∀ m, some m ∈ counts → m ≠ 0 → m = n) →
      determineCount cs = .ok n) := by
  refine ⟨fun s => rfl, fun l => rfl, ?_, ?_, ?_, ?_⟩
  · intro k v xs hv
    simp [contribution, hv]
  · intro tconn tcab ctx h cs counts hc hall
    have := determineCount_ambiguous hc hall
    simp [processSet, this]
  · intro tconn tcab ctx h cs counts a b hc ha hb ha0 hb0 hab
    have := determineCount_inconsistent hc ha hb ha0 hb0 hab
    simp [processSet, this]
  · intro cs counts n hc hn hn0 hall
    exact determineCount_ok hc hn hn0 hall

/-- Witness for C3 (amended) at concrete sets: an all-strings set fails as
ambiguous and a `2`-vs-`3` set fails as inconsistent, both leaving the harness
untouched. -/
theorem claim_c3_count_determination_witness :
    processSet [] [] ⟨[], []⟩ {} [.str "X1", .str "W1"] =
      (⟨[], []⟩, {}, some .ambiguousConnectionCount)
  ∧ processSet [] [] ⟨[], []⟩ {} [.list ["a", "a"], .list ["b", "b", "b"]] =
      (⟨[], []⟩, {}, some .inconsistentConnectionCount) :=
  ⟨claim_c3_count_determination.2.2.2.1 [] [] ⟨[], []⟩ {}
      [.str "X1", .str "W1"] [none, none] (by decide) (by decide),
   claim_c3_count_determination.2.2.2.2.1 [] [] ⟨[], []⟩ {}
      [.list ["a", "a"], .list ["b", "b", "b"]] [some 2, some 3] 2 3
      (by decide) (by decide) (by decide) (by decide) (by decide) (by decide)⟩

/-! ## Claim C4: entry widths after normalization (corrected) -/

/-- What designator resolution preserves of an entry: list length, mapping
value, string identity. -/
def entryShape : SetEntry → SetEntry → Prop
  | .list a, .list b => a.length = b.length
  | .dict _ v, .dict _ w => w = v
  | .str a, .str b => a = b
  | _, _ => False

theorem resolveList_ok_length {ctx ctx' : ResCtx} {l : List String} {l' : List String}
    (h : resolveList ctx l = (ctx', .ok l')) : l'.length = l.length := by
  induction l generalizing ctx ctx' l' with
  | nil =>
    simp only [resolveList, Prod.mk.injEq] at h
    obtain ⟨-, h2⟩ := h
    cases h2
    rfl
  | cons s rest ih =>
    simp only [resolveList] at h
    rcases hres : resolve_designator ctx s with ⟨ctx1, r1⟩
    cases r1 with
    | error e =>
      simp only [hres] at h
      simp at h
    | ok td =>
      obtain ⟨t, d⟩ := td
      simp only [hres] at h
      rcases hrest : resolveList ctx1 rest with ⟨ctx2, r2⟩
      cases r2 with
      | error e =>
        simp only [hrest] at h
        simp at h
      | ok rest' =>
        simp only [hrest, Prod.mk.injEq] at h
        obtain ⟨-, h2⟩ := h
        cases h2
        simp [ih hrest]

theorem resolveEntry_ok_shape {ctx ctx' : ResCtx} {e e' : SetEntry}
    (h : resolveEntry ctx e = (ctx', .ok e')) : entryShape e e' := by
  cases e with
  | str s =>
    simp only [resolveEntry, Prod.mk.injEq] at h
    obtain ⟨-, h2⟩ := h
    cases h2
    simp [entryShape]
  | list l =>
    simp only [resolveEntry] at h
    rcases hres : resolveList ctx l with ⟨ctx1, r1⟩
    cases r1 with
    | error e =>
      simp only [hres] at h
      simp at h
    | ok l2 =>
      simp only [hres, Prod.mk.injEq] at h
      obtain ⟨-, h2⟩ := h
      cases h2
      simpa [entryShape] using (resolveList_ok_length hres).symm
  | dict k v =>
    simp only [resolveEntry] at h
    rcases hres : resolve_designator ctx k with ⟨ctx1, r1⟩
    cases r1 with
    | error e =>
      simp only [hres] at h
      simp at h
    | ok td =>
      obtain ⟨t, d⟩ := td
      simp only [hres, Prod.mk.injEq] at h
      obtain ⟨-, h2⟩ := h
      cases h2
      simp [entryShape]

theorem resolveEntries_ok_shape {ctx ctx' : ResCtx} {l l' : List SetEntry}
    (h : resolveEntries ctx l = (ctx', .ok l')) : List.Forall₂ entryShape l l' := by
  induction l generalizing ctx ctx' l' with
  | nil =>
    simp only [resolveEntries, Prod.mk.injEq] at h
    obtain ⟨-, h2⟩ := h
    cases h2
    exact List.Forall₂.nil
  | cons e rest ih =>
    simp only [resolveEntries] at h
    rcases hres : resolveEntry ctx e with ⟨ctx1, r1⟩
    cases r1 with
    | error er =>
      simp only [hres] at h
      simp at h
    | ok e' =>
      simp only [hres] at h
      rcases hrest : resolveEntries ctx1 rest with ⟨ctx2, r2⟩
      cases r2 with
      | error er =>
        simp only [hrest] at h
        simp at h
      | ok rest' =>
        simp only [hrest, Prod.mk.injEq] at h
        obtain ⟨-, h2⟩ := h
        cases h2
        exact List.Forall₂.cons (resolveEntry_ok_shape hres) (ih hrest)

theorem pinExpand_ok_forall {l : List SetEntry} {out : List (List (String × PVal))}
    (h : pinExpand l = .ok out) :
    List.Forall₂ (fun e le => pinExpandEntry e = .ok le) l out := by
  induction l generalizing out with
  | nil =>
    simp only [pinExpand] at h
    cases h
    exact List.Forall₂.nil
  | cons e rest ih =>
    simp only [pinExpand] at h
    cases he : pinExpandEntry e with
    | error er => rw [he] at h; cases h
    | ok le =>
      rw [he] at h
      cases hrest : pinExpand rest with
      | error er => rw [hrest] at h; cases h
      | ok rest' =>
        rw [hrest] at h
        cases h
        exact List.Forall₂.cons he (ih hrest)

theorem contributionsOf_ok_forall {cs : List SetEntry} {counts : List (Option Nat)}
    (h : contributionsOf cs = .ok counts) :
    List.Forall₂ (fun e c => contribution e = .ok c) cs counts := by
  induction cs generalizing counts with
  | nil =>
    simp only [contributionsOf] at h
    cases h
    exact List.Forall₂.nil
  | cons e rest ih =>
    simp only [contributionsOf] at h
    cases he : contribution e with
    | error er => rw [he] at h; cases h
    | ok c =>
      rw [he] at h
      cases hrest : contributionsOf rest with
      | error er => rw [hrest] at h; cases h
      | ok cs' =>
        rw [hrest] at h
        cases h
        exact List.Forall₂.cons he (ih hrest)

theorem dedup_le_one_all_eq {l : List Nat} (h : l.dedup.length ≤ 1) :
    ∀ x ∈ l, ∀ y ∈ l, x = y := by
  intro x hx y hy
  by_contra hne
  exact absurd (one_lt_length_of_two_mem (List.mem_dedup.2 hx) (List.mem_dedup.2 hy) hne)
    (by omega)

theorem determineCount_ok_inv {cs : List SetEntry} {n : Nat}
    (h : determineCount cs = .ok n) :
    ∃ counts, contributionsOf cs = .ok counts ∧
      (∀ m, some m ∈ counts → m ≠ 0 → m = n) := by
  unfold determineCount at h
  cases hcon : contributionsOf cs with
  | error e =>
    simp only [hcon] at h
    simp at h
  | ok counts =>
    simp only [hcon] at h
    refine ⟨counts, rfl, ?_⟩
    by_cases hany : (counts.any fun c => c.getD 0 ≠ 0) = true
    · rw [hany] at h
      rw [if_neg (by simp)] at h
      by_cases hlen : 1 < ((counts.filterMap id).filter (fun n => n ≠ 0)).dedup.length
      · rw [if_pos hlen] at h
        cases h
      · rw [if_neg hlen] at h
        have hn : ((counts.filterMap id).filter (fun n => n ≠ 0)).headD 0 = n := by
          cases h
          rfl
        intro m hm hm0
        have hmem : m ∈ (counts.filterMap id).filter (fun n => n ≠ 0) := by
          have := mem_filteredCounts.2 ⟨hm, hm0⟩
          simpa [filteredCounts] using this
        have hne : (counts.filterMap id).filter (fun n => n ≠ 0) ≠ [] :=
          List.ne_nil_of_mem hmem
        have hhd : ((counts.filterMap id).filter (fun n => n ≠ 0)).headD 0 ∈
            (counts.filterMap id).filter (fun n => n ≠ 0) := by
          cases hf : (counts.filterMap id).filter (fun n => n ≠ 0) with
          | nil => exact absurd hf hne
          | cons a t => simp
        rw [hn] at hhd
        exact dedup_le_one_all_eq (by omega) m hmem n hhd
    · rw [eq_false_of_ne_true hany] at h
      rw [if_pos (by simp)] at h
      cases h

theorem widths_of_stages {n : Nat} :
    ∀ {cs : List SetEntry} {counts : List (Option Nat)} {cs2 : List SetEntry}
      {out : List (List (String × PVal))},
      List.Forall₂ (fun e c => contribution e = .ok c) cs counts →
      List.Forall₂ entryShape (normalizeSet n cs) cs2 →
      List.Forall₂ (fun e le => pinExpandEntry e = .ok le) cs2 out →
      (∀ m, some m ∈ counts → m ≠ 0 → m = n) →
      ∀ l ∈ out, l.length = n ∨ l.length = 0 := by
  intro cs
  induction cs with
  | nil =>
    intro counts cs2 out hcnt hshape hexp hall l hl
    cases hcnt
    simp only [normalizeSet, List.map_nil] at hshape
    cases hshape
    cases hexp
    cases hl
  | cons e rest ih =>
    intro counts cs2 out hcnt hshape hexp hall l hl
    cases hcnt with
    | cons R1 hcntT =>
      rename_i c countsT
      simp only [normalizeSet, List.map_cons] at hshape
      cases hshape with
      | cons R2 hshapeT =>
        rename_i e2 cs2T
        cases hexp with
        | cons R3 hexpT =>
          rename_i le outT
          have hallT : ∀ m, some m ∈ countsT → m ≠ 0 → m = n := by
            intro m hm hm0
            exact hall m (List.mem_cons_of_mem _ hm) hm0
          cases hl with
          | tail _ hl => exact ih hcntT hshapeT hexpT hallT l hl
          | head =>
            cases e with
            | str s =>
              cases e2 with
              | list b =>
                simp only [entryShape, List.length_replicate] at R2
                simp only [pinExpandEntry] at R3
                cases R3
                left
                simp [← R2]
              | str s2 => simp [entryShape] at R2
              | dict k w => simp [entryShape] at R2
            | list a =>
              simp only [contribution] at R1
              cases R1
              cases e2 with
              | list b =>
                simp only [entryShape] at R2
                simp only [pinExpandEntry] at R3
                cases R3
                by_cases ha : a.length = 0
                · right
                  simp [← R2, ha]
                · left
                  have := hall a.length (List.mem_cons_self _ _) ha
                  simp [← R2, this]
              | str s2 => simp [entryShape] at R2
              | dict k w => simp [entryShape] at R2
            | dict k v =>
              simp only [contribution] at R1
              cases hexpv : expand v with
              | error er =>
                rw [hexpv] at R1
                cases R1
              | ok xs =>
                rw [hexpv] at R1
                cases R1
                cases e2 with
                | dict k2 w =>
                  simp only [entryShape] at R2
                  cases R2
                  simp only [pinExpandEntry, hexpv] at R3
                  cases R3
                  by_cases hx : xs.length = 0
                  · right
                    simp [hx]
                  · left
                    have := hall xs.length (List.mem_cons_self _ _) hx
                    simp [this]
                | str s2 => simp [entryShape] at R2
                | list b => simp [entryShape] at R2

/-- The width guarantee of the stages up to `connection set @3` of one set. -/
theorem stageThree_widths {ctx : ResCtx} {cs : List SetEntry} {n : Nat}
    {out : List (List (String × PVal))}
    (hdet : determineCount cs = .ok n) (hst : stageThree ctx cs = .ok out) :
    out.length = cs.length ∧ ∀ l ∈ out, l.length = n ∨ l.length = 0 := by
  obtain ⟨counts, hcon, hall⟩ := determineCount_ok_inv hdet
  unfold stageThree at hst
  simp only [hdet] at hst
  rcases hres : resolveEntries ctx (normalizeSet n cs) with ⟨ctx1, r1⟩
  cases r1 with
  | error e =>
    simp only [hres] at hst
    simp at hst
  | ok cs2 =>
    simp only [hres] at hst
    have hshape := resolveEntries_ok_shape hres
    have hexp := pinExpand_ok_forall hst
    have hcnt := contributionsOf_ok_forall hcon
    have len1 : (normalizeSet n cs).length = cs.length := by simp [normalizeSet]
    have len2 := hshape.length_eq
    have len3 := hexp.length_eq
    exact ⟨by omega, widths_of_stages hcnt hshape hexp hall⟩

/-- Counterexample to C4 as stated: the set `[["a","a"], []]` passes count
determination with count 2 (the empty list's `0` is dropped like a `None`), no
`InconsistentConnectionCount` is raised, and after normalization and pin
expansion the second entry is a list of length `0 ≠ 2`. -/
theorem claim_c4_counterexample :
    determineCount [SetEntry.list ["a", "a"], SetEntry.list []] = .ok 2
  ∧ stageThree ⟨[], []⟩ [SetEntry.list ["a", "a"], SetEntry.list []] =
      .ok [[("a", .int 1), ("a", .int 1)], []]
  ∧ ¬ ∀ l ∈ [[("a", PVal.int 1), ("a", PVal.int 1)], ([] : List (String × PVal))],
        l.length = 2 := by
  decide

/-- C4 (amended). For every connection set that passes count determination with
count `n`, after normalization and pin expansion the set has one record list per
entry and every record list has length `n` or length `0` — length `0` occurring
exactly for entries that contributed no width information (empty lists, empty
ranges); and a set in which two entries reveal disagreeing nonzero counts still
fails with `InconsistentConnectionCount` before normalization. -/
theorem claim_c4_normalized_widths :
    (∀ (ctx : ResCtx) (cs : List SetEntry) (n : Nat)
      (out : List (List (String × PVal))),
      determineCount cs = .ok n → stageThree ctx cs = .ok out →
      out.length = cs.length ∧ ∀ l ∈ out, l.length = n ∨ l.length = 0)
  ∧ (∀ (cs : List SetEntry) (counts : List (Option Nat)) (a b : Nat),
      contributionsOf cs = .ok counts → some a ∈ counts → some b ∈ counts →
      a ≠ 0 → b ≠ 0 → a ≠ b →
      determineCount cs = .error .inconsistentConnectionCount) :=
  ⟨fun _ _ _ _ hdet hst => stageThree_widths hdet hst,
   fun _ _ _ _ hc ha hb ha0 hb0 hab => determineCount_inconsistent hc ha hb ha0 hb0 hab⟩

/-- Witness for C4 (amended) on the end-to-end style set
`["X1", {"W1": "1-2"}, "X1.X2"]`: count 2, and both the string-derived and the
range-derived record lists have length 2. -/
theorem claim_c4_normalized_widths_witness :
    ∀ l ∈ [[("X1", PVal.int 1), ("X1", PVal.int 1)],
           [("W1", PVal.int 1), ("W1", PVal.int 2)],
           [("X2", PVal.int 1), ("X2", PVal.int 1)]],
      l.length = 2 ∨ l.length = 0 :=
  (claim_c4_normalized_widths.1 ⟨[], []⟩
    [.str "X1", .dict "W1" (.scalar (.s "1-2")), .str "X1.X2"] 2
    [[("X1", .int 1), ("X1", .int 1)], [("W1", .int 1), ("W1", .int 2)],
     [("X2", .int 1), ("X2", .int 1)]]
    (by decide) (by decide)).2

/-! ## Claim C1: the end-to-end scenario (corrected) -/

/-- The connections list of a cable of the harness (empty when absent). -/
def cableConnections (h : Harness) (name : String) : List WireConnection :=
  match lookupA h.cables name with
  | some c => c.connections
  | none => []

/-- The connector template `X1` of the scenario: pins `[1, 2]`. -/
def exC1connX1 : Connector := { pins := [.int 1, .int 2] }

/-- The cable template `W1` of the scenario: `wirecount: 2`. -/
def exC1cabW1 : Cable := { wirecount := 2 }

/-- The scenario's single connection set `[X1, {W1: 1-2}, X1.X2]` — `X2` bound
to template `X1`, the pin range `1-2` carried by the cable entry. -/
def exC1sets : List (List SetEntry) :=
  [[.str "X1", .dict "W1" (.scalar (.s "1-2")), .str "X1.X2"]]

/-- The harness the engine actually produces on the scenario. -/
def exC1result : Harness :=
  { connectors := [("X1", exC1connX1), ("X2", exC1connX1)],
    cables := [("W1", { exC1cabW1 with connections :=
      [⟨some "X1", some (.int 1), .int 1, some "X2", some (.int 1)⟩,
       ⟨some "X1", some (.int 1), .int 2, some "X2", some (.int 1)⟩] })] }

/-- Counterexample to C1 as stated: the engine emits
`(X1,1)-(W1,1)-(X2,1)` and `(X1,1)-(W1,2)-(X2,1)` — the second chain touches
pin 1 of both connectors, not pin 2 as the claim expects, because the pin-list
expansion step gives every element of a list entry the literal pin `1`
(`wireviz.py` line 158). -/
theorem claim_c1_counterexample :
    cableConnections (parseDoc [("X1", exC1connX1)] [("W1", exC1cabW1)] exC1sets).1 "W1" =
      [⟨some "X1", some (.int 1), .int 1, some "X2", some (.int 1)⟩,
       ⟨some "X1", some (.int 1), .int 2, some "X2", some (.int 1)⟩]
  ∧ cableConnections (parseDoc [("X1", exC1connX1)] [("W1", exC1cabW1)] exC1sets).1 "W1" ≠
      [⟨some "X1", some (.int 1), .int 1, some "X2", some (.int 1)⟩,
       ⟨some "X1", some (.int 2), .int 2, some "X2", some (.int 2)⟩] := by
  decide

/-- C1 (amended). On the scenario input (connector template `X1` with pins
`[1,2]`, cable template `W1` with wirecount 2, one set `[X1, {W1: 1-2}, X1.X2]`)
the resolution engine succeeds and produces exactly two connect operations,
`(X1,1)-(W1,1)-(X2,1)` and `(X1,1)-(W1,2)-(X2,1)`: the cable side enumerates
wires 1 and 2 from the range, while bare connector entries always carry pin 1;
both connector instances are materialized from template `X1`. -/
theorem claim_c1_end_to_end :
    parseDoc [("X1", exC1connX1)] [("W1", exC1cabW1)] exC1sets = (exC1result, none) := by
  decide

/-! ## Claims C7 and C8: BOM aggregation -/

theorem mem_dedupKeepFirstAux [DecidableEq α] (x : α) :
    ∀ (l seen : List α), x ∈ dedupKeepFirstAux seen l ↔ x ∈ l ∧ x ∉ seen := by
  intro l
  induction l with
  | nil =>
    intro seen
    simp [dedupKeepFirstAux]
  | cons a l ih =>
    intro seen
    by_cases ha : a ∈ seen
    · simp only [dedupKeepFirstAux, if_pos ha, ih, List.mem_cons]
      constructor
      · rintro ⟨hx, hs⟩
        exact ⟨Or.inr hx, hs⟩
      · rintro ⟨hx | hx, hs⟩
        · subst hx
          exact absurd ha hs
        · exact ⟨hx, hs⟩
    · simp only [dedupKeepFirstAux, if_neg ha, List.mem_cons, ih]
      constructor
      · rintro (rfl | ⟨hx, hs⟩)
        · exact ⟨Or.inl rfl, ha⟩
        · exact ⟨Or.inr hx, fun hmem => hs (Or.inr hmem)⟩
      · rintro ⟨rfl | hx, hs⟩
        · exact Or.inl rfl
        · by_cases hxa : x = a
          · exact Or.inl hxa
          · exact Or.inr ⟨hx, by simp [hxa, hs]⟩

theorem nodup_dedupKeepFirstAux [DecidableEq α] :
    ∀ (l seen : List α), (dedupKeepFirstAux seen l).Nodup := by
  intro l
  induction l with
  | nil =>
    intro seen
    simp [dedupKeepFirstAux]
  | cons a l ih =>
    intro seen
    by_cases ha : a ∈ seen
    · simpa [dedupKeepFirstAux, ha] using ih seen
    · simp only [dedupKeepFirstAux, if_neg ha]
      refine List.nodup_cons.2 ⟨?_, ih _⟩
      intro hmem
      rcases (mem_dedupKeepFirstAux a l (a :: seen)).1 hmem with ⟨-, hs⟩
      exact hs (List.mem_cons_self _ _)

theorem mem_dedupKeepFirst [DecidableEq α] {x : α} {l : List α} :
    x ∈ dedupKeepFirst l ↔ x ∈ l := by
  simp [dedupKeepFirst, mem_dedupKeepFirstAux]

theorem nodup_dedupKeepFirst [DecidableEq α] (l : List α) : (dedupKeepFirst l).Nodup :=
  nodup_dedupKeepFirstAux l []

theorem dedupKeepFirst_perm [DecidableEq α] {l₁ l₂ : List α} (h : l₁.Perm l₂) :
    (dedupKeepFirst l₁).Perm (dedupKeepFirst l₂) := by
  rw [List.perm_ext_iff_of_nodup (nodup_dedupKeepFirst l₁) (nodup_dedupKeepFirst l₂)]
  intro a
  simp [mem_dedupKeepFirst, h.mem_iff]

theorem headD_mem_of_ne_nil {l : List α} (h : l ≠ []) (d : α) : l.headD d ∈ l := by
  cases l with
  | nil => exact absurd rfl h
  | cons a t => simp

instance : IsTotal BomEntry (fun a b => pyLe a.item b.item) :=
  ⟨fun a b => pyLe_total a.item b.item⟩

instance : IsTrans BomEntry (fun a b => pyLe a.item b.item) :=
  ⟨fun _ _ _ hab hbc => pyLe_trans hab hbc⟩

instance : IsAntisymm BomEntry (fun a b => pyLe a.item b.item ∧ a.item ≠ b.item) :=
  ⟨fun _ _ h1 h2 => absurd (pyLe_antisymm h1.1 h2.1) h1.2⟩

theorem keyOf_mem_groupOf {es : List BomEntry} {k : BomKey} {e : BomEntry}
    (h : e ∈ groupOf es k) : keyOf e = k := by
  have := (List.mem_filter.1 h).2
  simpa using this

theorem groupOf_ne_nil_of_mem_keys {es : List BomEntry} {k : BomKey}
    (h : k ∈ bomKeys es) : groupOf es k ≠ [] := by
  rcases List.mem_map.1 (mem_dedupKeepFirst.1 h) with ⟨e, he, hk⟩
  have : e ∈ groupOf es k := List.mem_filter.2 ⟨he, by simp [hk]⟩
  exact List.ne_nil_of_mem this

/-- For a nonempty group, the aggregated row written out field by field: the key
fields of the group, the rounded quantity sum, the sorted deduplicated
designator union. -/
theorem rowFor_eq_explicit {es : List BomEntry} {k : BomKey}
    (hne : groupOf es k ≠ []) :
    rowFor es k =
      ⟨k.item, round3 (((groupOf es k).map (fun e => e.qty)).sum), k.unit,
        List.insertionSort pyLe
          (dedupKeepFirst ((groupOf es k).flatMap (fun e => e.designators))),
        k.manufacturer, k.mpn, k.pn⟩ := by
  obtain ⟨e0, g', hg⟩ : ∃ e0 g', groupOf es k = e0 :: g' := by
    cases hgg : groupOf es k with
    | nil => exact absurd hgg hne
    | cons a t => exact ⟨a, t, rfl⟩
  have he0 : keyOf e0 = k := keyOf_mem_groupOf (by rw [hg]; exact List.mem_cons_self _ _)
  obtain ⟨i, q, u, d, m, mp, p⟩ := e0
  obtain ⟨ki, ku, km, kmp, kp⟩ := k
  simp only [keyOf, BomKey.mk.injEq] at he0
  obtain ⟨rfl, rfl, rfl, rfl, rfl⟩ := he0
  simp only [rowFor, hg, List.headD_cons]

theorem keyOf_rowFor {es : List BomEntry} {k : BomKey} (hne : groupOf es k ≠ []) :
    keyOf (rowFor es k) = k := by
  rw [rowFor_eq_explicit hne]
  rfl

theorem rowFor_eq_of_perm {es₁ es₂ : List BomEntry} (hp : es₁.Perm es₂) {k : BomKey}
    (hne : groupOf es₁ k ≠ []) : rowFor es₁ k = rowFor es₂ k := by
  have hgp : (groupOf es₁ k).Perm (groupOf es₂ k) := hp.filter _
  have hne₂ : groupOf es₂ k ≠ [] := by
    intro h0
    rw [h0] at hgp
    exact hne (List.Perm.eq_nil hgp)
  rw [rowFor_eq_explicit hne, rowFor_eq_explicit hne₂]
  have hqty : ((groupOf es₁ k).map (fun e => e.qty)).sum =
      ((groupOf es₂ k).map (fun e => e.qty)).sum :=
    (hgp.map (fun e => e.qty)).sum_eq
  have hdes : List.insertionSort pyLe
        (dedupKeepFirst ((groupOf es₁ k).flatMap (fun e => e.designators))) =
      List.insertionSort pyLe
        (dedupKeepFirst ((groupOf es₂ k).flatMap (fun e => e.designators))) := by
    have hflat : ((groupOf es₁ k).flatMap (fun e => e.designators)).Perm
        ((groupOf es₂ k).flatMap (fun e => e.designators)) :=
      hgp.flatMap_right _
    have hded := dedupKeepFirst_perm hflat
    have hsp : (List.insertionSort pyLe
          (dedupKeepFirst ((groupOf es₁ k).flatMap (fun e => e.designators)))).Perm
        (List.insertionSort pyLe
          (dedupKeepFirst ((groupOf es₂ k).flatMap (fun e => e.designators)))) :=
      ((List.perm_insertionSort _ _).trans hded).trans
        (List.perm_insertionSort _ _).symm
    exact List.eq_of_perm_of_sorted hsp
      (List.sorted_insertionSort _ _) (List.sorted_insertionSort _ _)
  rw [hqty, hdes]

theorem map_comp_snd_enumFrom (f : β → γ) (n : Nat) (l : List β) :
    (List.enumFrom n l).map (fun r => f r.2) = l.map f := by
  induction l generalizing n with
  | nil => rfl
  | cons a t ih => simp [List.enumFrom, ih]

theorem bomRows_perm {es₁ es₂ : List BomEntry} (hp : es₁.Perm es₂) :
    (bomRows es₁).Perm (bomRows es₂) := by
  have hkeys : (bomKeys es₁).Perm (bomKeys es₂) := dedupKeepFirst_perm (hp.map keyOf)
  have hcong : bomRows es₁ = (bomKeys es₁).map (rowFor es₂) := by
    unfold bomRows
    apply List.map_congr_left
    intro k hk
    exact rowFor_eq_of_perm hp (groupOf_ne_nil_of_mem_keys hk)
  rw [hcong]
  exact hkeys.map _

theorem bomSorted_perm {es₁ es₂ : List BomEntry} (hp : es₁.Perm es₂) :
    (bomSorted es₁).Perm (bomSorted es₂) :=
  ((List.perm_insertionSort _ _).trans (bomRows_perm hp)).trans
    (List.perm_insertionSort _ _).symm

theorem bomSorted_sorted (es : List BomEntry) :
    List.Sorted (fun a b : BomEntry => pyLe a.item b.item) (bomSorted es) :=
  List.sorted_insertionSort _ _

theorem map_keyOf_bomRows (es : List BomEntry) :
    (bomRows es).map keyOf = bomKeys es := by
  unfold bomRows
  rw [List.map_map]
  have : ∀ k ∈ bomKeys es, (keyOf ∘ rowFor es) k = id k := by
    intro k hk
    exact keyOf_rowFor (groupOf_ne_nil_of_mem_keys hk)
  rw [List.map_congr_left this, List.map_id]

theorem mem_bomSorted_row {es : List BomEntry} {r : BomEntry}
    (hr : r ∈ bomSorted es) : r = rowFor es (keyOf r) := by
  have : r ∈ bomRows es := (List.perm_insertionSort _ _).mem_iff.1 hr
  rcases List.mem_map.1 this with ⟨k, hk, hrk⟩
  have hne := groupOf_ne_nil_of_mem_keys hk
  have hkey : keyOf r = k := by rw [← hrk]; exact keyOf_rowFor hne
  rw [hkey, hrk]

/-- C7. The BOM operation groups the (whitespace-cleaned) entries by
`(item, unit, manufacturer, mpn, pn)` — the output rows' keys are exactly the
distinct entry keys; each row's quantity is the group's quantity sum rounded to
3 decimals and its designators are the sorted duplicate-free union of the
group's designators; the rows are sorted by item description; and the ids are
the sequence `1, 2, ...` assigned after that sort. -/
theorem claim_c7_bom_grouping (h : Harness) :
    (bomPure h).map Prod.fst =
      List.range' 1 (bomSorted ((mkBomEntries h).map cleanEntry)).length
  ∧ List.Sorted (fun a b : BomEntry => pyLe a.item b.item) ((bomPure h).map Prod.snd)
  ∧ ((bomPure h).map (fun r => keyOf r.2)).Perm
      (dedupKeepFirst (((mkBomEntries h).map cleanEntry).map keyOf))
  ∧ ∀ r ∈ bomPure h,
      r.2.qty = round3
          (((groupOf ((mkBomEntries h).map cleanEntry) (keyOf r.2)).map
            (fun e => e.qty)).sum)
    ∧ r.2.designators = List.insertionSort pyLe
        (dedupKeepFirst
          ((groupOf ((mkBomEntries h).map cleanEntry) (keyOf r.2)).flatMap
            (fun e => e.designators))) := by
  refine ⟨?_, ?_, ?_, ?_⟩
  · simp [bomPure, bomAggregate]
  · have : (bomPure h).map Prod.snd = bomSorted ((mkBomEntries h).map cleanEntry) := by
      simp [bomPure, bomAggregate]
    rw [this]
    exact bomSorted_sorted _
  · have h1 : (bomPure h).map (fun r => keyOf r.2) =
        (bomSorted ((mkBomEntries h).map cleanEntry)).map keyOf := by
      simp only [bomPure, bomAggregate]
      exact map_comp_snd_enumFrom keyOf 1 _
    rw [h1]
    show ((bomSorted ((mkBomEntries h).map cleanEntry)).map keyOf).Perm
      (bomKeys ((mkBomEntries h).map cleanEntry))
    rw [← map_keyOf_bomRows]
    exact ((List.perm_insertionSort _ _).map keyOf)
  · intro r hr
    have hsnd : r.2 ∈ bomSorted ((mkBomEntries h).map cleanEntry) := by
      have : r.2 ∈ (bomPure h).map Prod.snd := List.mem_map.2 ⟨r, hr, rfl⟩
      simpa [bomPure, bomAggregate] using this
    have hrow := mem_bomSorted_row hsnd
    have hne : groupOf ((mkBomEntries h).map cleanEntry) (keyOf r.2) ≠ [] := by
      have hkmem : keyOf r.2 ∈ bomKeys ((mkBomEntries h).map cleanEntry) := by
        have hrr : r.2 ∈ bomRows ((mkBomEntries h).map cleanEntry) :=
          (List.perm_insertionSort _ _).mem_iff.1 hsnd
        have hx : keyOf r.2 ∈ (bomRows ((mkBomEntries h).map cleanEntry)).map keyOf :=
          List.mem_map_of_mem keyOf hrr
        rwa [map_keyOf_bomRows] at hx
      exact groupOf_ne_nil_of_mem_keys hkmem
    constructor
    · conv_lhs => rw [hrow, rowFor_eq_explicit hne]
    · conv_lhs => rw [hrow, rowFor_eq_explicit hne]

/-- A harness for the C7 witness: two connectors sharing a grouping key and one
off-key connector. -/
def exC7harness : Harness :=
  { connectors := [("J1", {}), ("J2", {}), ("J3", { ctype := some "X" })] }

/-- Witness for C7 at a concrete harness: instantiating the theorem yields the
grouping facts of its three-connector BOM. -/
theorem claim_c7_bom_grouping_witness :
    (bomPure exC7harness).map Prod.fst =
      List.range' 1 (bomSorted ((mkBomEntries exC7harness).map cleanEntry)).length
  ∧ List.Sorted (fun a b : BomEntry => pyLe a.item b.item)
      ((bomPure exC7harness).map Prod.snd)
  ∧ ((bomPure exC7harness).map (fun r => keyOf r.2)).Perm
      (dedupKeepFirst (((mkBomEntries exC7harness).map cleanEntry).map keyOf))
  ∧ ∀ r ∈ bomPure exC7harness,
      r.2.qty = round3
          (((groupOf ((mkBomEntries exC7harness).map cleanEntry) (keyOf r.2)).map
            (fun e => e.qty)).sum)
    ∧ r.2.designators = List.insertionSort pyLe
        (dedupKeepFirst
          ((groupOf ((mkBomEntries exC7harness).map cleanEntry) (keyOf r.2)).flatMap
            (fun e => e.designators))) :=
  claim_c7_bom_grouping exC7harness

/-- Two connectors with the same item description (`"Connector"`) but different
manufacturers, hence different grouping keys. -/
def exC8a : Connector := { manufacturer := some "M1" }

/-- See `exC8a`. -/
def exC8b : Connector := { manufacturer := some "M2" }

/-- The harness declaring `J1` before `J2`. -/
def exC8h1 : Harness := { connectors := [("J1", exC8a), ("J2", exC8b)] }

/-- The same declarations in the opposite order. -/
def exC8h2 : Harness := { connectors := [("J2", exC8b), ("J1", exC8a)] }

/-- Counterexample to C8 as stated: the two harnesses are permutations of each
other, yet the BOMs differ — the two rows share the item text `"Connector"`, the
sort by item is stable, so the ids follow declaration order and swap. -/
theorem claim_c8_counterexample :
    exC8h1.connectors.Perm exC8h2.connectors
  ∧ exC8h1.cables = exC8h2.cables
  ∧ exC8h1.additional_bom_items = exC8h2.additional_bom_items
  ∧ (bomPure exC8h1).map (fun r => (r.1, r.2.manufacturer)) =
      [(1, some "M1"), (2, some "M2")]
  ∧ (bomPure exC8h2).map (fun r => (r.1, r.2.manufacturer)) =
      [(1, some "M2"), (2, some "M1")]
  ∧ bomPure exC8h1 ≠ bomPure exC8h2 := by
  refine ⟨List.Perm.swap _ _ _, rfl, rfl, by decide, by decide, ?_⟩
  intro heq
  have h1 : (bomPure exC8h1).map (fun r => (r.1, r.2.manufacturer)) =
      [(1, some "M1"), (2, some "M2")] := by decide
  have h2 : (bomPure exC8h2).map (fun r => (r.1, r.2.manufacturer)) =
      [(1, some "M2"), (2, some "M1")] := by decide
  rw [heq, h2] at h1
  exact absurd h1 (by decide)

/-- C8 (amended). BOM grouping is order-independent up to ids: permuting the
connector and cable declarations yields a permutation of the same grouped rows
(same keys, same summed quantities, same designators); and when the grouped
rows carry pairwise-distinct item descriptions the two BOMs are fully equal,
ids included — only rows tied on item text can exchange ids, following
declaration order through the stable sort. -/
theorem claim_c8_bom_order_invariance (h₁ h₂ : Harness)
    (hc : h₁.connectors.Perm h₂.connectors) (hcab : h₁.cables.Perm h₂.cables)
    (had : h₁.additional_bom_items = h₂.additional_bom_items) :
    ((bomPure h₁).map Prod.snd).Perm ((bomPure h₂).map Prod.snd)
  ∧ (((bomPure h₁).map (fun r => r.2.item)).Nodup → bomPure h₁ = bomPure h₂) := by
  have hents : (mkBomEntries h₁).Perm (mkBomEntries h₂) := by
    unfold mkBomEntries
    exact ((hc.flatMap_right _).append (hcab.flatMap_right _)).append (by rw [had])
  have hclean : ((mkBomEntries h₁).map cleanEntry).Perm
      ((mkBomEntries h₂).map cleanEntry) := hents.map _
  have hsp := bomSorted_perm hclean
  have hm1 : (bomPure h₁).map Prod.snd = bomSorted ((mkBomEntries h₁).map cleanEntry) := by
    simp [bomPure, bomAggregate]
  have hm2 : (bomPure h₂).map Prod.snd = bomSorted ((mkBomEntries h₂).map cleanEntry) := by
    simp [bomPure, bomAggregate]
  constructor
  · rw [hm1, hm2]
    exact hsp
  · intro hnd
    have hi1 : (bomPure h₁).map (fun r => r.2.item) =
        (bomSorted ((mkBomEntries h₁).map cleanEntry)).map (fun e => e.item) := by
      simp only [bomPure, bomAggregate]
      exact map_comp_snd_enumFrom (fun e : BomEntry => e.item) 1 _
    rw [hi1] at hnd
    have hnd2 : ((bomSorted ((mkBomEntries h₂).map cleanEntry)).map
        (fun e => e.item)).Nodup := ((hsp.map (fun e => e.item)).nodup_iff).1 hnd
    have hlt1 : List.Pairwise (fun a b : BomEntry => pyLe a.item b.item ∧ a.item ≠ b.item)
        (bomSorted ((mkBomEntries h₁).map cleanEntry)) := by
      have hs := bomSorted_sorted ((mkBomEntries h₁).map cleanEntry)
      have hne := List.pairwise_map.1 hnd
      exact List.Pairwise.and hs hne
    have hlt2 : List.Pairwise (fun a b : BomEntry => pyLe a.item b.item ∧ a.item ≠ b.item)
        (bomSorted ((mkBomEntries h₂).map cleanEntry)) := by
      have hs := bomSorted_sorted ((mkBomEntries h₂).map cleanEntry)
      have hne := List.pairwise_map.1 hnd2
      exact List.Pairwise.and hs hne
    have heq : bomSorted ((mkBomEntries h₁).map cleanEntry) =
        bomSorted ((mkBomEntries h₂).map cleanEntry) :=
      List.eq_of_perm_of_sorted hsp hlt1 hlt2
    simp only [bomPure, bomAggregate]
    rw [heq]

/-- Two connectors with distinct item descriptions (different types). -/
def exC8c : Connector := { ctype := some "TypA" }

/-- See `exC8c`. -/
def exC8d : Connector := { ctype := some "TypB" }

/-- Distinct-item harness, one declaration order. -/
def exC8h3 : Harness := { connectors := [("J1", exC8c), ("J2", exC8d)] }

/-- Distinct-item harness, the opposite order. -/
def exC8h4 : Harness := { connectors := [("J2", exC8d), ("J1", exC8c)] }

/-- Witness for C8 (amended): with pairwise-distinct item descriptions the two
declaration orders give fully identical BOMs, ids included. -/
theorem claim_c8_bom_order_invariance_witness :
    bomPure exC8h3 = bomPure exC8h4 :=
  (claim_c8_bom_order_invariance exC8h3 exC8h4 (List.Perm.swap _ _ _)
    (List.Perm.refl _) rfl).2 (by decide)
